import Mathlib

/-!
Verification development for the config-lib configuration engine.

The Rust sources are shallowly embedded: strings are lists of characters
(`Str`), `BTreeMap<String, Value>` is an association list kept sorted by the
byte-lexicographic key order (UTF-8 byte order coincides with code-point
order, which `keyLt` implements), `i64`/`u64` are `Int`/`Nat` with explicit
range conditions, and `f64` values are modelled by `FVal` (exact rationals
plus the special values; rounding of decimal literals is not modelled — no
theorem below depends on a value where the model and IEEE 754 differ).
Unicode-dependent std functions (`char::is_alphanumeric`, `str::trim`,
`str::to_lowercase`) are modelled by their ASCII behaviour; every theorem
below only evaluates them on ASCII characters, where the model is exact.
-/

/-- Rust `&str` / `String` contents as a list of characters. -/
abbrev Str := List Char

/-- Byte-lexicographic (equivalently code-point-lexicographic) strict order on
strings, the order of `BTreeMap<String, _>` iteration in Rust. -/
def keyLt : Str → Str → Bool
  | [], [] => false
  | [], _ :: _ => true
  | _ :: _, [] => false
  | a :: s, b :: t => if a < b then true else if b < a then false else keyLt s t

/-- Exact model of `f64` values: rationals for finite values plus the three
special values. Decimal-literal rounding is not modelled. -/
inductive FVal where
  | finite (q : ℚ)
  | inf
  | neginf
  | nan
deriving DecidableEq, Repr

/-- The unified configuration value (`src/value.rs`, `enum Value`). `Table`
is `BTreeMap<String, Value>`: a sorted-by-`keyLt`, duplicate-free
association list. -/
inductive Value where
  | Null : Value
  | Bool (b : Bool) : Value
  | Integer (i : Int) : Value
  | Float (f : FVal) : Value
  | String (s : Str) : Value
  | Array (vs : List Value) : Value
  | Table (t : List (Str × Value)) : Value

/-- The library error type (`src/error.rs`, `enum Error`), restricted to the
variants the embedded core can produce.  Dynamic parts of the formatted
messages are reproduced where they are cheap to build. -/
inductive Err where
  | Parse (message : Str) (line : Nat) (column : Nat)
  | KeyNotFound (key : Str) (available : List Str)
  | TypeMismatch (value : Str) (expected : Str) (actual : Str)
deriving DecidableEq, Repr

/-- `Error::key_not_found` (`error.rs`): empty suggestion list. -/
def Err.key_not_found (key : Str) : Err :=
  Err.KeyNotFound key []

/-- `Value::type_name` (`value.rs`). -/
def type_name : Value → Str
  | .Null => "null".data
  | .Bool _ => "bool".data
  | .Integer _ => "integer".data
  | .Float _ => "float".data
  | .String _ => "string".data
  | .Array _ => "array".data
  | .Table _ => "table".data

/-- `Value::is_table`. -/
def is_table : Value → Bool
  | .Table _ => true
  | _ => false

/-- `BTreeMap::get` on the sorted association list (plain lookup — sortedness
is irrelevant for the result on the maps the code builds). -/
def tget : List (Str × Value) → Str → Option Value
  | [], _ => none
  | (k', v') :: t, k => if k = k' then some v' else tget t k

/-- `BTreeMap::insert` on the sorted association list: insert in key order,
replacing the value if the key is present. -/
def tinsert : List (Str × Value) → Str → Value → List (Str × Value)
  | [], k, v => [(k, v)]
  | (k', v') :: t, k, v =>
    if keyLt k k' then (k, v) :: (k', v') :: t
    else if keyLt k' k then (k', v') :: tinsert t k v
    else (k, v) :: t

/-- `BTreeMap::remove`. -/
def tremove : List (Str × Value) → Str → Option Value × List (Str × Value)
  | [], _ => (none, [])
  | (k', v') :: t, k =>
    if k = k' then (some v', t)
    else
      let r := tremove t k
      (r.1, (k', v') :: r.2)

/-- `str::split('.')`: split at every occurrence of the separator, keeping
empty pieces; the empty string yields one empty piece, as in Rust. -/
def splitChar (c : Char) : Str → List Str
  | [] => [[]]
  | x :: xs =>
    if x = c then [] :: splitChar c xs
    else
      match splitChar c xs with
      | [] => [[x]]
      | h :: t => (x :: h) :: t

/-- `slice::split_last`, specialised to the nonempty lists `split('.')`
produces: returns `(last, init)`. -/
def splitLast : List Str → Str × List Str
  | [] => ([], [])
  | [x] => (x, [])
  | x :: y :: t =>
    let r := splitLast (y :: t)
    (r.1, x :: r.2)

/-- The segment-walking loop of `Value::get`. -/
def getParts : Value → List Str → Option Value
  | v, [] => some v
  | .Table t, part :: rest =>
    match tget t part with
    | some v' => getParts v' rest
    | none => none
  | _, _ :: _ => none

/-- `Value::get` (`value.rs` lines 248–266): empty path addresses `self`;
otherwise walk the dot-separated segments, failing on a missing key or a
non-`Table` intermediate. -/
def getPath (v : Value) (path : Str) : Option Value :=
  if path = [] then some v else getParts v (splitChar '.' path)

/-- Parent navigation and final lookup of `get_mut_nested`. -/
def getMutGo : Value → List Str → Str → Except Err Value
  | cur, [], last =>
    match cur with
    | .Table t =>
      match tget t last with
      | some v' => .ok v'
      | none => .error (Err.key_not_found last)
    | other => .error (Err.TypeMismatch
        ("Cannot get key from non-table".data) ("table".data) (type_name other))
  | cur, part :: rest, last =>
    match cur with
    | .Table t =>
      match tget t part with
      | some v' => getMutGo v' rest last
      | none => .error (Err.key_not_found part)
    | other => .error (Err.TypeMismatch
        ("Cannot navigate into non-table".data) ("table".data) (type_name other))

/-- `Value::get_mut_nested` (`value.rs` lines 269–310).  Mutability is not
modelled; the function returns the addressed value.  The embedded code
mirrors the source's split into parent navigation and final lookup. -/
def get_mut_nested (v : Value) (path : Str) : Except Err Value :=
  if path = [] then .ok v
  else
    let parts := splitChar '.' path
    let lp := splitLast parts
    getMutGo v lp.2 lp.1

/-- The navigate-and-create loop of `set_nested`: each segment of the parent
path is looked up with `entry(..).or_insert_with(empty table)`; a non-table
on the way is an error (any tables created before the error stay in place,
exactly as with in-place mutation). -/
def setGo : Value → List Str → Str → Value → Except Err Unit × Value
  | cur, [], last, val =>
    match cur with
    | .Table t => (.ok (), .Table (tinsert t last val))
    | other => (.error (Err.TypeMismatch
        ("Cannot set key in non-table".data) ("table".data) (type_name other)), other)
  | cur, part :: rest, last, val =>
    match cur with
    | .Table t =>
      match tget t part with
      | some sub =>
        let r := setGo sub rest last val
        (r.1, .Table (tinsert t part r.2))
      | none =>
        let r := setGo (.Table []) rest last val
        (r.1, .Table (tinsert t part r.2))
    | other => (.error (Err.TypeMismatch
        ("Cannot navigate into non-table".data) ("table".data) (type_name other)), other)

/-- `Value::set_nested` (`value.rs` lines 313–355).  Rust mutates `self` and
returns `Result<()>`; the embedding returns the pair (result, updated tree)
so that partial mutation on the error path is observable. -/
def set_nested (v : Value) (path : Str) (val : Value) :
    Except Err Unit × Value :=
  if path = [] then (.error (Err.key_not_found []), v)
  else
    let parts := splitChar '.' path
    let lp := splitLast parts
    setGo v lp.2 lp.1 val

/-- Parent navigation and final removal of `Value::remove`. -/
def removeGo : Value → List Str → Str → Except Err (Option Value) × Value
  | cur, [], last =>
    match cur with
    | .Table t =>
      let r := tremove t last
      (.ok r.1, .Table r.2)
    | other => (.error (Err.TypeMismatch
        ("Cannot remove key from non-table".data) ("table".data) (type_name other)), other)
  | cur, part :: rest, last =>
    match cur with
    | .Table t =>
      match tget t part with
      | some sub =>
        let r := removeGo sub rest last
        (r.1, .Table (tinsert t part r.2))
      | none => (.error (Err.key_not_found part), .Table t)
    | other => (.error (Err.TypeMismatch
        ("Cannot navigate into non-table".data) ("table".data) (type_name other)), other)

/-- `Value::remove` (`value.rs` lines 358–398).  The empty path replaces
`self` by `Null` and returns the old value; otherwise navigate to the parent
table and remove the final key there. -/
def removePath (v : Value) (path : Str) :
    Except Err (Option Value) × Value :=
  if path = [] then (.ok (some v), .Null)
  else
    let parts := splitChar '.' path
    let lp := splitLast parts
    removeGo v lp.2 lp.1

mutual

/-- `Config::merge_value` (`src/config.rs` lines 392–423).  The source
returns `Result<()>` but can never return `Err`; the embedding returns the
merged value directly.  Two tables merge key by key; any other combination
replaces `self` with `other`. -/
def mergeValue : Value → Value → Value
  | .Table st, .Table ot => .Table (mergeList st ot)
  | _, other => other

/-- The `for (key, other_value) in other_table` loop of `merge_value`:
recurse when both sides hold tables at the key, otherwise insert/replace
with `other`'s value. -/
def mergeList : List (Str × Value) → List (Str × Value) → List (Str × Value)
  | st, [] => st
  | st, (k, ov) :: rest =>
    let newv :=
      match tget st k with
      | some sv => if is_table sv && is_table ov then mergeValue sv ov else ov
      | none => ov
    mergeList (tinsert st k newv) rest

end

/-- Strict ascending chain of keys. -/
def sortedKeys : List Str → Bool
  | [] => true
  | [_] => true
  | a :: b :: t => keyLt a b && sortedKeys (b :: t)

mutual

/-- Tables at every level are duplicate-free and sorted by `keyLt`
(the invariant every Rust `BTreeMap` satisfies by construction). -/
def sortedValue : Value → Bool
  | .Table t => sortedKeys (t.map (·.1)) && sortedPairs t
  | .Array vs => sortedVals vs
  | _ => true

/-- `sortedValue` on every value of an association list. -/
def sortedPairs : List (Str × Value) → Bool
  | [] => true
  | (_, v) :: t => sortedValue v && sortedPairs t

/-- `sortedValue` on every element of a list. -/
def sortedVals : List Value → Bool
  | [] => true
  | v :: t => sortedValue v && sortedVals t

end

mutual

/-- No table in the tree has an empty-string key. -/
def noEmptyKeys : Value → Bool
  | .Table t => (t.map (·.1)).all (· != []) && noEmptyPairs t
  | .Array vs => noEmptyVals vs
  | _ => true

/-- `noEmptyKeys` on every value of an association list. -/
def noEmptyPairs : List (Str × Value) → Bool
  | [] => true
  | (_, v) :: t => noEmptyKeys v && noEmptyPairs t

/-- `noEmptyKeys` on every element of a list. -/
def noEmptyVals : List Value → Bool
  | [] => true
  | v :: t => noEmptyKeys v && noEmptyVals t

end

/-- `i64::MIN`. -/
def i64Min : Int := -(2 ^ 63)

/-- `i64::MAX`. -/
def i64Max : Int := 2 ^ 63 - 1

/-- `u64::MAX`. -/
def u64Max : Nat := 2 ^ 64 - 1

/-- `str::trim` (ASCII whitespace; Rust trims Unicode whitespace, which
coincides on the ASCII inputs all theorems use). -/
def rust_trim (s : Str) : Str :=
  ((s.dropWhile Char.isWhitespace).reverse.dropWhile Char.isWhitespace).reverse

/-- One character of `str::to_lowercase`, ASCII fragment. -/
def asciiLowerChar (c : Char) : Char :=
  if 'A' ≤ c ∧ c ≤ 'Z' then Char.ofNat (c.toNat + 32) else c

/-- `str::to_lowercase` (ASCII fragment; Unicode case mapping is not
modelled — both embedded uses compare against ASCII keywords only). -/
def asciiLower (s : Str) : Str :=
  s.map asciiLowerChar

/-- `str::starts_with` on strings. -/
def startsWithStr (s p : Str) : Bool :=
  p.isPrefixOf s

/-- `str::contains` with a string pattern. -/
def containsStr : Str → Str → Bool
  | s, p =>
    if p.isPrefixOf s then true
    else
      match s with
      | [] => false
      | _ :: t => containsStr t p

/-- `str::lines`: split on `'\n'`, strip one trailing `'\r'` per line, and
drop the final empty piece produced by a trailing newline (so `""` has no
lines and `"a\n"` has one). -/
def rustLines (s : Str) : List Str :=
  let parts := splitChar '\n' s
  let parts :=
    match parts.getLast? with
    | some [] => parts.dropLast
    | _ => parts
  parts.map fun l =>
    match l.getLast? with
    | some '\r' => l.dropLast
    | _ => l

/-- `str::split` with a character-set pattern (used as `split([' ', ','])`):
every separator occurrence cuts, empty pieces are kept. -/
def splitAnyChar (seps : List Char) : Str → List Str
  | [] => [[]]
  | x :: xs =>
    if seps.contains x then [] :: splitAnyChar seps xs
    else
      match splitAnyChar seps xs with
      | [] => [[x]]
      | h :: t => (x :: h) :: t

/-- Numeric value of a digit string (most significant first). -/
def digitsVal (s : Str) : Nat :=
  s.foldl (fun acc c => 10 * acc + (c.toNat - '0'.toNat)) 0

/-- Shared digits-with-sign core of `i64::from_str`. -/
def parseI64Core (neg : Bool) (ds : Str) : Option Int :=
  if ds = [] ∨ ¬ ds.all Char.isDigit then none
  else
    let v : Int := if neg then -(digitsVal ds : Int) else (digitsVal ds : Int)
    if i64Min ≤ v ∧ v ≤ i64Max then some v else none

/-- `str::parse::<i64>`: optional sign, one or more ASCII digits, overflow
rejected. -/
def parse_i64 : Str → Option Int
  | '+' :: ds => parseI64Core false ds
  | '-' :: ds => parseI64Core true ds
  | ds => parseI64Core false ds

/-- Mantissa-and-exponent part of the `f64` grammar, as an exact rational:
`Digit+ | Digit+ '.' Digit* | Digit* '.' Digit+`, then `('e'|'E') Sign?
Digit+`. -/
def parseDecimal (r : Str) : Option ℚ :=
  let mant := r.takeWhile fun c => c ≠ 'e' ∧ c ≠ 'E'
  let rest := r.dropWhile fun c => c ≠ 'e' ∧ c ≠ 'E'
  let ip := mant.takeWhile fun c => c ≠ '.'
  let fp' := mant.dropWhile fun c => c ≠ '.'
  let fp := fp'.drop 1
  if ¬ (ip.all Char.isDigit ∧ fp.all Char.isDigit ∧ (ip ≠ [] ∨ fp ≠ []) ∧
        ¬ fp.contains '.' ∧ (fp' = [] ∨ fp'.take 1 = ['.'])) then none
  else
    let base : ℚ := (digitsVal ip : ℚ) + (digitsVal fp : ℚ) / (10 : ℚ) ^ fp.length
    match rest with
    | [] => some base
    | _ :: er =>
      let (eneg, eds) :=
        match er with
        | '+' :: t => (false, t)
        | '-' :: t => (true, t)
        | t => (false, t)
      if eds = [] ∨ ¬ eds.all Char.isDigit then none
      else
        let e : ℤ := if eneg then -(digitsVal eds : Int) else (digitsVal eds : Int)
        some (base * (10 : ℚ) ^ e)

/-- Keyword-or-number body of `f64::from_str` after the optional sign. -/
def parseF64Body (neg : Bool) (r : Str) : Option FVal :=
  let low := asciiLower r
  if low = "inf".data ∨ low = "infinity".data then
    some (if neg then .neginf else .inf)
  else if low = "nan".data then some .nan
  else
    match parseDecimal r with
    | some q => some (.finite (if neg then -q else q))
    | none => none

/-- `str::parse::<f64>`: optional sign then keyword or decimal number.
Decimal values are kept as exact rationals (rounding to the nearest `f64`
is not modelled). -/
def parse_f64 : Str → Option FVal
  | '+' :: r => parseF64Body false r
  | '-' :: r => parseF64Body true r
  | r => parseF64Body false r

/-- Fueled digit rendering, most significant first (fuel keeps the
definition structurally recursive so closed terms reduce in the kernel). -/
def natDigitsGo : Nat → Nat → Str
  | 0, _ => []
  | f + 1, n =>
    if n < 10 then [Nat.digitChar n]
    else natDigitsGo f (n / 10) ++ [Nat.digitChar (n % 10)]

/-- Decimal rendering of a natural number (`u64`-style, no sign). -/
def nat_to_string (n : Nat) : Str :=
  natDigitsGo (n + 1) n

/-- `i64::to_string`: optional `'-'` then decimal digits. -/
def int_to_string (i : Int) : Str :=
  if i < 0 then '-' :: nat_to_string i.natAbs else nat_to_string i.toNat

/-- `ConfParser::parse_simple_value` (`conf.rs` lines 353–366): try `i64`,
then `f64`, else string.  The source returns `Result` but never errs. -/
def parse_simple_value (value : Str) : Value :=
  match parse_i64 value with
  | some i => .Integer i
  | none =>
    match parse_f64 value with
    | some f => .Float f
    | none => .String value

/-- The typing tail of `ConfParser::parse_unquoted_value` (`conf.rs` lines
322–350), applied to the trimmed raw text: empty → `Null`; boolean and null
keywords (lowercased); space/comma-separated texts split into an `Array` of
`parse_simple_value`d pieces when more than one nonempty piece results;
otherwise `parse_simple_value` of the whole text. -/
def conf_type_unquoted (raw : Str) : Value :=
  if raw = [] then .Null
  else
    let low := asciiLower raw
    if low = "true".data ∨ low = "yes".data ∨ low = "on".data then .Bool true
    else if low = "false".data ∨ low = "no".data ∨ low = "off".data then .Bool false
    else if low = "null".data ∨ low = "nil".data ∨ low = [] then .Null
    else
      let split :=
        if raw.contains ' ' || raw.contains ',' then
          let items :=
            (((splitAnyChar [' ', ','] raw).map rust_trim).filter
              (fun s => !(s == []))).map parse_simple_value
          if items.length > 1 then some (Value.Array items) else none
        else none
      match split with
      | some v => v
      | none => parse_simple_value raw

/-- `IniParser::parse_typed_value` (`ini_parser.rs` lines 311–335): empty →
empty string; boolean keywords including `"1"`/`"0"`; then `i64`, `f64`,
string.  The source returns `Result` but never errs. -/
def ini_parse_typed_value (value : Str) : Value :=
  if value = [] then .String []
  else
    let low := asciiLower value
    if low = "true".data ∨ low = "yes".data ∨ low = "on".data ∨ low = "1".data then
      .Bool true
    else if low = "false".data ∨ low = "no".data ∨ low = "off".data ∨ low = "0".data then
      .Bool false
    else
      match parse_i64 value with
      | some i => .Integer i
      | none =>
        match parse_f64 value with
        | some f => .Float f
        | none => .String value

/-- `str::ends_with(char)`. -/
def endsWithChar (s : Str) (c : Char) : Bool :=
  match s.getLast? with
  | some c' => c' = c
  | none => false

/-- Occurrences of a character (`str::matches(char).count()`). -/
def countChar (s : Str) (c : Char) : Nat :=
  (s.filter (· = c)).length

/-- `contains_noml_features` (`parsers/mod.rs` lines 158–167). -/
def contains_noml_features (content : Str) : Bool :=
  containsStr content "env(".data || containsStr content "include ".data ||
  containsStr content "$\x7b".data || containsStr content "@size(".data ||
  containsStr content "@duration(".data || containsStr content "@url(".data ||
  containsStr content "@ip(".data

/-- `contains_properties_features` (`parsers/mod.rs` lines 170–187). -/
def contains_properties_features (content : Str) : Bool :=
  (rustLines content).any fun line =>
    let trimmed := rust_trim line
    if startsWithStr trimmed "!".data then true
    else if containsStr trimmed "\\n".data || containsStr trimmed "\\t".data ||
            containsStr trimmed "\\u".data then true
    else if trimmed.contains ':' && !trimmed.contains '=' &&
            !startsWithStr trimmed "#".data then true
    else false

/-- The line-scanning loop of `contains_ini_features` with its four mutable
flags (`has_section`, `has_ini_comment`, `has_key_value_in_section`,
`in_section`); returns `has_section && has_key_value_in_section ||
has_ini_comment`. -/
def iniFeatScan : List Str → Bool → Bool → Bool → Bool → Bool
  | [], hs, hc, hkv, _ => hs && hkv || hc
  | line :: rest, hs, hc, hkv, inSec =>
    let trimmed := rust_trim line
    if startsWithStr trimmed "[".data && endsWithChar trimmed ']' &&
       !trimmed.contains '=' &&
       (let sc := (trimmed.drop 1).dropLast
        !(sc.contains '[') && !(sc.contains ']')) then
      iniFeatScan rest true hc hkv true
    else
      let hc' := hc || startsWithStr trimmed ";".data
      let hkv' := hkv ||
        (inSec && (trimmed.contains '=' || trimmed.contains ':') &&
         !startsWithStr trimmed "#".data && !startsWithStr trimmed ";".data)
      iniFeatScan rest hs hc' hkv' inSec

/-- `contains_ini_features` (`parsers/mod.rs` lines 190–227). -/
def contains_ini_features (content : Str) : Bool :=
  iniFeatScan (rustLines content) false false false false

/-- `contains_toml_features` (`parsers/mod.rs` lines 230–244). -/
def contains_toml_features (content : Str) : Bool :=
  (rustLines content).any fun line =>
    let trimmed := rust_trim line
    if startsWithStr trimmed "[".data && endsWithChar trimmed ']' &&
       !trimmed.contains '=' then true
    else if containsStr trimmed "T".data && containsStr trimmed "Z".data then true
    else false

/-- `contains_xml_features` (`parsers/mod.rs` lines 247–276). -/
def contains_xml_features (content : Str) : Bool :=
  let trimmed := rust_trim content
  if startsWithStr trimmed "<?xml".data then true
  else if containsStr trimmed "</".data then true
  else if containsStr trimmed "xmlns".data then true
  else if containsStr trimmed "/>".data then true
  else
    let openTags := countChar trimmed '<'
    let closeTags := countChar trimmed '>'
    decide (openTags > 0) && decide (closeTags > 0) && decide (openTags ≤ closeTags)

/-- `contains_hcl_features` (`parsers/mod.rs` lines 279–321): block syntax,
the block keywords (including `data `), or a line containing both `"${"`
and `"}"`. -/
def contains_hcl_features (content : Str) : Bool :=
  (rustLines content).any fun line =>
    let trimmed := rust_trim line
    (containsStr trimmed " \"".data && containsStr trimmed "\" \x7b".data) ||
    startsWithStr trimmed "variable ".data ||
    startsWithStr trimmed "output ".data ||
    startsWithStr trimmed "resource ".data ||
    startsWithStr trimmed "data ".data ||
    startsWithStr trimmed "provider ".data ||
    startsWithStr trimmed "terraform ".data ||
    startsWithStr trimmed "module ".data ||
    (containsStr trimmed "$\x7b".data && containsStr trimmed "\x7d".data)

/-- `detect_format` (`parsers/mod.rs` lines 115–155): XML, JSON, HCL, NOML,
INI, Properties, TOML, in that order, defaulting to `"conf"`. -/
def detect_format (content : Str) : String :=
  let trimmed := rust_trim content
  if startsWithStr trimmed "<".data && contains_xml_features content then "xml"
  else if startsWithStr trimmed "\x7b".data || startsWithStr trimmed "[".data then "json"
  else if contains_hcl_features content then "hcl"
  else if contains_noml_features content then "noml"
  else if contains_ini_features content then "ini"
  else if contains_properties_features content then "properties"
  else if contains_toml_features content then "toml"
  else "conf"

/-- Model of `serde_json::Number` (default build): the documented internal
representation `PosInt(u64) | NegInt(i64) | Float(f64)`.  `posInt` carries
values in `[0, u64::MAX]`, `negInt` strictly negative values down to
`i64::MIN`, as produced by serde_json's number lexer. -/
inductive JNum where
  | posInt (n : Nat)
  | negInt (i : Int)
  | float (f : FVal)
deriving DecidableEq, Repr

/-- Model of `serde_json::Value`. -/
inductive JVal where
  | null
  | bool (b : Bool)
  | num (n : JNum)
  | str (s : Str)
  | arr (vs : List JVal)
  | obj (members : List (Str × JVal))

/-- `serde_json::Number::as_i64`: `PosInt` within `i64` range or any
`NegInt`; `None` for large `PosInt` and for `Float`. -/
def jnumAsI64 : JNum → Option Int
  | .posInt n => if (n : Int) ≤ i64Max then some (n : Int) else none
  | .negInt i => some i
  | .float _ => none

/-- `serde_json::Number::as_f64`: always succeeds — integers are cast with
`as f64`.  The cast is modelled exactly (as the rational of the integer);
IEEE rounding of integers above 2^53 is not modelled, and no theorem uses a
value where they differ (2^63 is exactly representable). -/
def jnumAsF64 : JNum → Option FVal
  | .posInt n => some (.finite (n : ℚ))
  | .negInt i => some (.finite (i : ℚ))
  | .float f => some f

/-- How serde_json's lexer classifies an integral numeric literal (no
fraction, no exponent): non-negative values up to `u64::MAX` become
`PosInt`, negative values down to `i64::MIN` become `NegInt`, anything
else falls back to an `f64` approximation (modelled as the exact
rational). -/
def serdeNumOfInt (n : Int) : JNum :=
  if 0 ≤ n ∧ n ≤ (u64Max : Int) then .posInt n.toNat
  else if i64Min ≤ n ∧ n < 0 then .negInt n
  else .float (.finite (n : ℚ))

mutual

/-- `convert_json_value` (`parsers/json_parser.rs` lines 18–48). -/
def convert_json_value : JVal → Except Err Value
  | .null => .ok .Null
  | .bool b => .ok (.Bool b)
  | .num n =>
    match jnumAsI64 n with
    | some i => .ok (.Integer i)
    | none =>
      match jnumAsF64 n with
      | some f => .ok (.Float f)
      | none => .error (Err.Parse ("Invalid number".data) 1 1)
  | .str s => .ok (.String s)
  | .arr vs =>
    match convertJsonList vs with
    | .ok l => .ok (.Array l)
    | .error e => .error e
  | .obj members =>
    match convertJsonObj members with
    | .ok t => .ok (.Table t)
    | .error e => .error e

/-- The `collect` over an array's elements. -/
def convertJsonList : List JVal → Except Err (List Value)
  | [] => .ok []
  | v :: rest =>
    match convert_json_value v with
    | .ok v' =>
      match convertJsonList rest with
      | .ok l => .ok (v' :: l)
      | .error e => .error e
    | .error e => .error e

/-- The member loop building the `BTreeMap` of an object. -/
def convertJsonObj : List (Str × JVal) → Except Err (List (Str × Value))
  | [] => .ok []
  | (k, v) :: rest =>
    match convert_json_value v with
    | .ok v' =>
      match convertJsonObj rest with
      | .ok t => .ok (tinsert t k v')
      | .error e => .error e
    | .error e => .error e

end

/-- The apostrophe character (written via its code point to keep character
literals simple). -/
def squoteChar : Char := Char.ofNat 39

/-- The double-quote character. -/
def dquoteChar : Char := Char.ofNat 34

/-- The backslash character. -/
def bslashChar : Char := Char.ofNat 92

/-- `char::is_alphanumeric` (ASCII fragment; the Unicode alphabetic table
is not modelled — no theorem feeds a non-ASCII character to a key scan). -/
def rustIsAlphanumeric (c : Char) : Bool :=
  c.isAlphanum

/-- UTF-8 byte size of one character (`char::len_utf8`). -/
def rustUtf8Size (c : Char) : Nat :=
  if c.toNat ≤ 0x7F then 1
  else if c.toNat ≤ 0x7FF then 2
  else if c.toNat ≤ 0xFFFF then 3
  else 4

/-- UTF-8 byte length of a string (`str::len`). -/
def utf8Len (s : Str) : Nat :=
  (s.map rustUtf8Size).sum

/-- `ConfParser` state: `pos` counts characters — exactly what
`self.input.chars().nth(self.position)` indexes — while `is_at_end` and the
slices interpret the same number as a byte index.  `line`/`column` are
1-indexed. -/
structure CSt where
  pos : Nat
  line : Nat
  column : Nat
deriving DecidableEq, Repr

/-- Outcome of an embedded parsing step: success (with the value and the
state after it), a returned `ParseError`, a Rust panic (a byte slice at a
non-character boundary), or fuel exhaustion of the embedding's fueled
loops (never reached when the code terminates). -/
inductive PRes (α : Type) where
  | ok (a : α) (st : CSt)
  | err (e : Err)
  | panicked
  | outOfFuel

/-- Sequencing for `PRes`. -/
def PRes.bind : PRes α → (α → CSt → PRes β) → PRes β
  | .ok a st, f => f a st
  | .err e, _ => .err e
  | .panicked, _ => .panicked
  | .outOfFuel, _ => .outOfFuel

/-- `ConfParser::peek`: `input.chars().nth(position)`. -/
def peekAt (input : Str) (st : CSt) : Option Char :=
  input.get? st.pos

/-- `ConfParser::advance`: step one character, tracking line/column; at end
of input the state is unchanged (the source returns `None`). -/
def advSt (input : Str) (st : CSt) : CSt :=
  match peekAt input st with
  | some ch =>
    if ch = '\n' then ⟨st.pos + 1, st.line + 1, 1⟩
    else ⟨st.pos + 1, st.line, st.column + 1⟩
  | none => st

/-- `ConfParser::is_at_end`: `self.position >= self.input.len()` — the
character count compared against the byte length. -/
def is_at_end (input : Str) (st : CSt) : Bool :=
  st.pos ≥ utf8Len input

/-- Drop `n` bytes from a string; `none` when `n` is not a character
boundary (where a Rust slice would panic). -/
def dropBytes : Str → Nat → Option Str
  | s, 0 => some s
  | [], _ + 1 => none
  | c :: s, n + 1 =>
    if rustUtf8Size c ≤ n + 1 then dropBytes s (n + 1 - rustUtf8Size c) else none

/-- Take `n` bytes from a string; `none` when `n` is not a character
boundary or exceeds the length. -/
def takeBytes : Str → Nat → Option Str
  | _, 0 => some []
  | [], _ + 1 => none
  | c :: s, n + 1 =>
    if rustUtf8Size c ≤ n + 1 then
      match takeBytes s (n + 1 - rustUtf8Size c) with
      | some r => some (c :: r)
      | none => none
    else none

/-- The byte slice `&input[a..b]`: `none` models the slice-boundary
panic. -/
def sliceBytes (input : Str) (a b : Nat) : Option Str :=
  if a ≤ b then
    match dropBytes input a with
    | some s => takeBytes s (b - a)
    | none => none
  else none

/-- Fuel every embedded loop receives: one more than the character count,
ample because every loop iteration advances the position. -/
def charFuel (input : Str) : Nat :=
  input.length + 1

/-- The `skip_whitespace` loop (`conf.rs` lines 369–377). -/
def skipWsGo (input : Str) : Nat → CSt → CSt
  | 0, st => st
  | f + 1, st =>
    match peekAt input st with
    | some ' ' => skipWsGo input f (advSt input st)
    | some '\t' => skipWsGo input f (advSt input st)
    | _ => st

/-- `ConfParser::skip_whitespace`. -/
def skip_whitespace (input : Str) (st : CSt) : CSt :=
  skipWsGo input (charFuel input) st

/-- The comment-skipping inner loop of `skip_whitespace_and_comments`:
advance past characters, stopping after a newline. -/
def commentGo (input : Str) : Nat → CSt → CSt
  | 0, st => st
  | f + 1, st =>
    match peekAt input st with
    | some ch =>
      let st1 := advSt input st
      if ch = '\n' then st1 else commentGo input f st1
    | none => st

/-- The outer loop of `skip_whitespace_and_comments` (`conf.rs` lines
380–403). -/
def swcGo (input : Str) : Nat → CSt → CSt
  | 0, st => st
  | f + 1, st =>
    let st1 := skip_whitespace input st
    match peekAt input st1 with
    | some '#' => swcGo input f (commentGo input (charFuel input) st1)
    | some '\n' => swcGo input f (advSt input st1)
    | some '\r' => swcGo input f (advSt input st1)
    | _ => st1

/-- `ConfParser::skip_whitespace_and_comments`. -/
def skip_whitespace_and_comments (input : Str) (st : CSt) : CSt :=
  swcGo input (charFuel input) st

/-- `ConfParser::expect` (`conf.rs` lines 427–441): advance and compare,
reporting the post-advance position on mismatch. -/
def cexpect (input : Str) (expected : Char) (st : CSt) : PRes Unit :=
  match peekAt input st with
  | some ch =>
    let st1 := advSt input st
    if ch = expected then .ok () st1
    else .err (Err.Parse
      ("Expected '".data ++ [expected] ++ "', found '".data ++ [ch] ++ [squoteChar])
      st1.line st1.column)
  | none => .err (Err.Parse
      ("Expected '".data ++ [expected] ++ "', found end of input".data)
      st.line st.column)

/-- The character class `parse_key` accepts: alphanumeric (Unicode in Rust,
ASCII in the model), `'_'`, `'-'` or `'.'`. -/
def keyChar (ch : Char) : Bool :=
  rustIsAlphanumeric ch || ch = '_' || ch = '-' || ch = '.'

/-- The key-scanning loop of `parse_key`. -/
def keyScanGo (input : Str) : Nat → CSt → CSt
  | 0, st => st
  | f + 1, st =>
    match peekAt input st with
    | some ch => if keyChar ch then keyScanGo input f (advSt input st) else st
    | none => st

/-- `ConfParser::parse_key` (`conf.rs` lines 134–150). -/
def parse_key (input : Str) (st : CSt) : PRes Str :=
  let stE := keyScanGo input (charFuel input) st
  if st.pos = stE.pos then
    .err (Err.Parse ("Expected key name".data) stE.line stE.column)
  else
    match sliceBytes input st.pos stE.pos with
    | some s => .ok s stE
    | none => .panicked

/-- The bracket-scanning loop of `parse_section_header`: stop at `']'` or
end of input, error on a newline. -/
def sectScanGo (input : Str) : Nat → CSt → PRes Unit
  | 0, _ => .outOfFuel
  | f + 1, st =>
    match peekAt input st with
    | some ']' => .ok () st
    | some '\n' => .err (Err.Parse ("Unterminated section header".data) st.line st.column)
    | some _ => sectScanGo input f (advSt input st)
    | none => .ok () st

/-- `ConfParser::parse_section_header` (`conf.rs` lines 97–120). -/
def parse_section_header (input : Str) (st : CSt) : PRes Str :=
  PRes.bind (cexpect input '[' st) fun _ st1 =>
  PRes.bind (sectScanGo input (charFuel input) st1) fun _ st2 =>
  match sliceBytes input st1.pos st2.pos with
  | some s =>
    let name := rust_trim s
    PRes.bind (cexpect input ']' st2) fun _ st3 => .ok name st3
  | none => .panicked

/-- The character loop of `parse_quoted_string` (`conf.rs` lines 169–207),
accumulating the unescaped text until the closing quote. -/
def quotedGo (input : Str) : Nat → CSt → Str → PRes Str
  | 0, _, _ => .outOfFuel
  | f + 1, st, acc =>
    match peekAt input st with
    | some ch =>
      if ch = dquoteChar then .ok acc st
      else if ch = bslashChar then
        let st1 := advSt input st
        match peekAt input st1 with
        | some 'n' => quotedGo input f (advSt input st1) (acc ++ ['\n'])
        | some 't' => quotedGo input f (advSt input st1) (acc ++ ['\t'])
        | some 'r' => quotedGo input f (advSt input st1) (acc ++ ['\r'])
        | some other =>
          if other = bslashChar then
            quotedGo input f (advSt input st1) (acc ++ [bslashChar])
          else if other = dquoteChar then
            quotedGo input f (advSt input st1) (acc ++ [dquoteChar])
          else
            quotedGo input f (advSt input st1) (acc ++ [bslashChar, other])
        | none => .err (Err.Parse ("Unterminated escape sequence".data) st1.line st1.column)
      else quotedGo input f (advSt input st) (acc ++ [ch])
    | none => .ok acc st

/-- `ConfParser::parse_quoted_string`. -/
def parse_quoted_string (input : Str) (st : CSt) : PRes Value :=
  PRes.bind (cexpect input dquoteChar st) fun _ st1 =>
  PRes.bind (quotedGo input (charFuel input) st1 []) fun s st2 =>
  PRes.bind (cexpect input dquoteChar st2) fun _ st3 => .ok (.String s) st3

/-- The scanning loop of `parse_single_quoted_string`. -/
def squotGo (input : Str) : Nat → CSt → CSt
  | 0, st => st
  | f + 1, st =>
    match peekAt input st with
    | some ch => if ch = squoteChar then st else squotGo input f (advSt input st)
    | none => st

/-- `ConfParser::parse_single_quoted_string` (`conf.rs` lines 210–224). -/
def parse_single_quoted_string (input : Str) (st : CSt) : PRes Value :=
  PRes.bind (cexpect input squoteChar st) fun _ st1 =>
  let st2 := squotGo input (charFuel input) st1
  match sliceBytes input st1.pos st2.pos with
  | some s => PRes.bind (cexpect input squoteChar st2) fun _ st3 => .ok (.String s) st3
  | none => .panicked

/-- The value-scanning loop of `parse_unquoted_value`: read to end of line,
comment, or end of input. -/
def unqScanGo (input : Str) : Nat → CSt → CSt
  | 0, st => st
  | f + 1, st =>
    match peekAt input st with
    | some ch =>
      if ch = '\n' ∨ ch = '\r' ∨ ch = '#' then st
      else unqScanGo input f (advSt input st)
    | none => st

/-- `ConfParser::parse_unquoted_value` (`conf.rs` lines 309–350): scan the
rest of the line, byte-slice it out (panicking on a split character), trim,
and type it with `conf_type_unquoted`. -/
def parse_unquoted_value (input : Str) (st : CSt) : PRes Value :=
  let stE := unqScanGo input (charFuel input) st
  match sliceBytes input st.pos stE.pos with
  | some s => .ok (conf_type_unquoted (rust_trim s)) stE
  | none => .panicked

mutual

/-- `ConfParser::parse_value` (`conf.rs` lines 153–166). -/
def parse_value (input : Str) : Nat → CSt → PRes Value
  | 0, _ => .outOfFuel
  | f + 1, st =>
    let st1 := skip_whitespace input st
    match peekAt input st1 with
    | some c =>
      if c = dquoteChar then parse_quoted_string input st1
      else if c = squoteChar then parse_single_quoted_string input st1
      else if c = '[' then parse_array input f st1
      else parse_unquoted_value input st1
    | none => parse_unquoted_value input st1

/-- `ConfParser::parse_array` (`conf.rs` lines 227–262). -/
def parse_array (input : Str) : Nat → CSt → PRes Value
  | 0, _ => .outOfFuel
  | f + 1, st =>
    PRes.bind (cexpect input '[' st) fun _ st1 =>
    let st2 := skip_whitespace input st1
    match peekAt input st2 with
    | some ']' => .ok (.Array []) (advSt input st2)
    | _ => arrayLoopGo input f st2 []

/-- The element loop of `parse_array`. -/
def arrayLoopGo (input : Str) : Nat → CSt → List Value → PRes Value
  | 0, _, _ => .outOfFuel
  | f + 1, st, acc =>
    PRes.bind (parse_value input f st) fun v st1 =>
    let st2 := skip_whitespace input st1
    match peekAt input st2 with
    | some ',' => arrayLoopGo input f (skip_whitespace input (advSt input st2)) (acc ++ [v])
    | some ']' => .ok (.Array (acc ++ [v])) (advSt input st2)
    | _ => .err (Err.Parse ("Expected ',' or ']' in array".data) st2.line st2.column)

end

/-- `ConfParser::parse_key_value` (`conf.rs` lines 123–131). -/
def parse_key_value (input : Str) (fuel : Nat) (st : CSt) : PRes (Str × Value) :=
  PRes.bind (parse_key input st) fun key st1 =>
  let st2 := skip_whitespace input st1
  PRes.bind (cexpect input '=' st2) fun _ st3 =>
  let st4 := skip_whitespace input st3
  PRes.bind (parse_value input fuel st4) fun v st5 => .ok (key, v) st5

/-- Final outcome of a whole-document parse. -/
inductive COut where
  | ok (v : Value)
  | err (e : Err)
  | panicked
  | outOfFuel

/-- Inserting a key into the current section's table (`conf.rs` lines
75–90): `root.entry(section).or_insert_with(empty table)` followed by the
`if let Table` insert — an existing non-table entry swallows the pair. -/
def confSectionInsert (root : List (Str × Value)) (sect key : Str) (v : Value) :
    List (Str × Value) :=
  match tget root sect with
  | some (Value.Table t) => tinsert root sect (.Table (tinsert t key v))
  | some _ => root
  | none => tinsert root sect (.Table (tinsert [] key v))

/-- The main loop of `ConfParser::parse` (`conf.rs` lines 55–94). -/
def parseLoopGo (input : Str) : Nat → CSt → List (Str × Value) → Option Str → COut
  | 0, _, _, _ => .outOfFuel
  | f + 1, st, root, cur =>
    if is_at_end input st then .ok (.Table root)
    else
      let st1 := skip_whitespace_and_comments input st
      if is_at_end input st1 then .ok (.Table root)
      else
        match peekAt input st1 with
        | some '[' =>
          match parse_section_header input st1 with
          | .ok name st2 => parseLoopGo input f st2 root (some name)
          | .err e => .err e
          | .panicked => .panicked
          | .outOfFuel => .outOfFuel
        | _ =>
          match parse_key_value input (charFuel input) st1 with
          | .ok kv st2 =>
            let root' :=
              match cur with
              | some sect => confSectionInsert root sect kv.1 kv.2
              | none => tinsert root kv.1 kv.2
            parseLoopGo input f st2 root' cur
          | .err e => .err e
          | .panicked => .panicked
          | .outOfFuel => .outOfFuel

/-- `conf::parse` (`conf.rs` lines 29–32 and 55–94): run the main loop from
the initial state with an empty root and no current section. -/
def conf_parse (input : Str) : COut :=
  parseLoopGo input (charFuel input) ⟨0, 1, 1⟩ [] none

/-- Fractional decimal digits of a rational in `[0,1)`, up to a digit
budget. -/
def fracDigits : Nat → ℚ → Str
  | 0, _ => []
  | n + 1, q =>
    if q = 0 then []
    else
      let q10 := q * 10
      Nat.digitChar q10.floor.toNat :: fracDigits n (q10 - q10.floor)

/-- Approximation of `f64`'s `Display`: integral values print with no
decimal point (as Rust does), other finite values as `int.frac` with up to
17 fractional digits.  Shortest-roundtrip formatting is not modelled; no
theorem evaluates this function. -/
def f64_to_string : FVal → Str
  | .inf => "inf".data
  | .neginf => "-inf".data
  | .nan => "NaN".data
  | .finite q =>
    let sign : Str := if q < 0 then ['-'] else []
    let a := |q|
    sign ++ nat_to_string a.floor.toNat ++
      (if a.den = 1 then [] else '.' :: fracDigits 17 (a - a.floor))

/-- `str::replace('"', "\\\"")`. -/
def escapeQuotes : Str → Str
  | [] => []
  | c :: rest =>
    if c = dquoteChar then bslashChar :: dquoteChar :: escapeQuotes rest
    else c :: escapeQuotes rest

mutual

/-- `Config::format_conf_value` (`config.rs` lines 335–361): scalars print
directly, strings are quoted only when they contain whitespace, arrays are
space-joined, a table is a hard error. -/
def format_conf_value : Value → Except Err Str
  | .Null => .ok "null".data
  | .Bool b => .ok (if b then "true".data else "false".data)
  | .Integer i => .ok (int_to_string i)
  | .Float f => .ok (f64_to_string f)
  | .String s =>
    if s.contains ' ' || s.contains '\t' || s.contains '\n' then
      .ok ([dquoteChar] ++ escapeQuotes s ++ [dquoteChar])
    else .ok s
  | .Array arr =>
    match formatConfItems arr with
    | .ok items => .ok (List.intercalate [' '] items)
    | .error e => .error e
  | .Table _ => .error (Err.TypeMismatch
      ("Cannot serialize nested table as value".data) ("primitive".data) ("table".data))

/-- The `collect` over an array's formatted elements. -/
def formatConfItems : List Value → Except Err (List Str)
  | [] => .ok []
  | v :: rest =>
    match format_conf_value v with
    | .ok s =>
      match formatConfItems rest with
      | .ok l => .ok (s :: l)
      | .error e => .error e
    | .error e => .error e

end

/-- The first pass of `Config::write_conf_table` (`config.rs` lines
308–314): `key = value` lines for the non-table entries, in map order. -/
def writeScalarLines : List (Str × Value) → Except Err Str
  | [] => .ok []
  | (k, v) :: rest =>
    if is_table v then writeScalarLines rest
    else
      match format_conf_value v with
      | .ok fv =>
        match writeScalarLines rest with
        | .ok out => .ok (k ++ " = ".data ++ fv ++ ['\n'] ++ out)
        | .error e => .error e
      | .error e => .error e

/- The second pass of `Config::write_conf_table` (`config.rs` lines
317–328) follows, with the recursive call inlined (a recursive level is its
scalar first pass followed by its own second pass): `[section]` headers
with dot-joined names for nesting depth greater than one. -/
mutual

/-- Per-entry body of the second pass: a `Table` entry becomes a header and
its recursively written body, any other entry contributes nothing. -/
def writeSectionEntry (k : Str) (v : Value) (sectPref : Str) : Except Err Str :=
  match v with
  | .Table nt =>
    let name := if sectPref = [] then k else sectPref ++ ".".data ++ k
    (match writeScalarLines nt with
     | .ok body1 =>
       match writeSections nt name with
       | .ok body2 => .ok ('\n' :: '[' :: (name ++ "]\n".data) ++ body1 ++ body2)
       | .error e => .error e
     | .error e => .error e)
  | _ => .ok []

/-- The second-pass loop over a table's entries. -/
def writeSections : List (Str × Value) → Str → Except Err Str
  | [], _ => .ok []
  | (k, v) :: rest, sectPref =>
    match writeSectionEntry k v sectPref with
    | .ok s =>
      match writeSections rest sectPref with
      | .ok out => .ok (s ++ out)
      | .error e => .error e
    | .error e => .error e

end

/-- `Config::write_conf_table` for one table level. -/
def write_conf_table (t : List (Str × Value)) (sectPref : Str) : Except Err Str :=
  match writeScalarLines t with
  | .ok s1 =>
    match writeSections t sectPref with
    | .ok s2 => .ok (s1 ++ s2)
    | .error e => .error e
  | .error e => .error e

/-- `Config::serialize_as_conf` (`config.rs` lines 293–299): write the root
table; any non-table root serializes to the empty string. -/
def serialize_as_conf (v : Value) : Except Err Str :=
  match v with
  | .Table t => write_conf_table t []
  | _ => .ok []

/-- The text of a successful serialization (empty on error), for stating
round-trip theorems without an existential. -/
def serializeTextOf (v : Value) : Str :=
  match serialize_as_conf v with
  | .ok s => s
  | .error _ => []

lemma keyLt_irrefl (s : Str) : keyLt s s = false := by
  induction s with
  | nil => rfl
  | cons a t ih => simp [keyLt, ih]

lemma keyLt_trans {a b c : Str} (h1 : keyLt a b = true) (h2 : keyLt b c = true) :
    keyLt a c = true := by
  induction b generalizing a c with
  | nil =>
    cases a with
    | nil => simp [keyLt] at h1
    | cons x xt => simp [keyLt] at h1
  | cons y bt ih =>
    cases a with
    | nil =>
      cases c with
      | nil => simp [keyLt] at h2
      | cons z ct => simp [keyLt]
    | cons x xt =>
      cases c with
      | nil => simp [keyLt] at h2
      | cons z ct =>
        simp only [keyLt] at h1 h2 ⊢
        by_cases hxy : x < y
        · by_cases hyz : y < z
          · rw [if_pos (lt_trans hxy hyz)]
          · by_cases hzy : z < y
            · rw [if_neg hyz, if_pos hzy] at h2
              cases h2
            · have he : y = z := le_antisymm (not_lt.mp hzy) (not_lt.mp hyz)
              subst he
              rw [if_pos hxy]
        · by_cases hyx : y < x
          · rw [if_neg hxy, if_pos hyx] at h1
            cases h1
          · have he : x = y := le_antisymm (not_lt.mp hyx) (not_lt.mp hxy)
            subst he
            rw [if_neg hxy, if_neg hyx] at h1
            by_cases hxz : x < z
            · rw [if_pos hxz]
            · by_cases hzx : z < x
              · rw [if_neg hxz, if_pos hzx] at h2
                cases h2
              · have he2 : x = z := le_antisymm (not_lt.mp hzx) (not_lt.mp hxz)
                subst he2
                rw [if_neg hxz, if_neg hzx] at h2 ⊢
                exact ih h1 h2

lemma keyLt_asymm {a b : Str} (h : keyLt a b = true) : keyLt b a = false := by
  cases hx : keyLt b a
  · rfl
  · have := keyLt_trans h hx
    rw [keyLt_irrefl] at this
    cases this

lemma keyLt_ne {a b : Str} (h : keyLt a b = true) : a ≠ b := by
  intro he
  subst he
  rw [keyLt_irrefl] at h
  cases h

lemma sortedKeys_tail {a : Str} {l : List Str} (h : sortedKeys (a :: l) = true) :
    sortedKeys l = true := by
  cases l with
  | nil => rfl
  | cons b t =>
    simp only [sortedKeys, Bool.and_eq_true] at h
    exact h.2

lemma sortedKeys_head_lt {a : Str} {l : List Str} (h : sortedKeys (a :: l) = true) :
    ∀ b ∈ l, keyLt a b = true := by
  induction l generalizing a with
  | nil => intro b hb; cases hb
  | cons c t ih =>
    intro b hb
    simp only [sortedKeys, Bool.and_eq_true] at h
    rcases List.mem_cons.mp hb with he | hb'
    · subst he
      exact h.1
    · exact keyLt_trans h.1 (ih h.2 b hb')

lemma tget_none_of_forall_ne {t : List (Str × Value)} {k : Str}
    (h : ∀ p ∈ t, p.1 ≠ k) : tget t k = none := by
  induction t with
  | nil => rfl
  | cons p rest ih =>
    obtain ⟨k', v'⟩ := p
    have hne : k ≠ k' := fun he => (h (k', v') (by simp)) he.symm
    simp only [tget, if_neg hne]
    exact ih fun q hq => h q (by simp [hq])

lemma tinsert_append_of_all_lt {t : List (Str × Value)} {k : Str} {v : Value}
    (h : ∀ p ∈ t, keyLt p.1 k = true) : tinsert t k v = t ++ [(k, v)] := by
  induction t with
  | nil => rfl
  | cons p rest ih =>
    obtain ⟨k', v'⟩ := p
    have hk'k : keyLt k' k = true := h (k', v') (by simp)
    have hkk' : ¬ (keyLt k k' = true) := by
      rw [keyLt_asymm hk'k]
      simp
    simp only [tinsert, if_neg hkk', if_pos hk'k, List.cons_append]
    rw [ih fun q hq => h q (by simp [hq])]

lemma tget_mem_keys {t : List (Str × Value)} {k : Str} {x : Value}
    (hg : tget t k = some x) : k ∈ t.map (·.1) := by
  induction t with
  | nil => simp [tget] at hg
  | cons p rest ih =>
    obtain ⟨k', v'⟩ := p
    simp only [tget] at hg
    by_cases hk : k = k'
    · subst hk
      rw [List.map_cons]
      exact List.mem_cons_self _ _
    · rw [if_neg hk] at hg
      rw [List.map_cons]
      exact List.mem_cons_of_mem _ (ih hg)

lemma tinsert_found {t : List (Str × Value)} {k : Str} {x : Value}
    (hs : sortedKeys (t.map (·.1)) = true) (hg : tget t k = some x) :
    tinsert t k x = t := by
  induction t with
  | nil => simp [tget] at hg
  | cons p rest ih =>
    obtain ⟨k', v'⟩ := p
    simp only [tget] at hg
    by_cases hk : k = k'
    · subst hk
      rw [if_pos rfl] at hg
      cases hg
      have : ¬ (keyLt k k = true) := by
        rw [keyLt_irrefl]
        simp
      simp [tinsert, this]
    · rw [if_neg hk] at hg
      have hmem : k ∈ rest.map (·.1) := tget_mem_keys hg
      have hlt : keyLt k' k = true :=
        sortedKeys_head_lt (by simpa using hs) k hmem
      have hkk' : ¬ (keyLt k k' = true) := by
        rw [keyLt_asymm hlt]
        simp
      simp only [tinsert, if_neg hkk', if_pos hlt]
      rw [ih (sortedKeys_tail (by simpa using hs)) hg]

lemma mergeList_append {st ot : List (Str × Value)}
    (h : sortedKeys (st.map (·.1) ++ ot.map (·.1)) = true) :
    mergeList st ot = st ++ ot := by
  induction ot generalizing st with
  | nil => simp [mergeList]
  | cons p rest ih =>
    obtain ⟨k, ov⟩ := p
    have hstlt : ∀ q ∈ st, keyLt q.1 k = true := by
      intro q hq
      have hmem : q.1 ∈ st.map (·.1) := List.mem_map_of_mem _ hq
      clear ih hq
      induction st with
      | nil => cases hmem
      | cons s srest ihs =>
        rcases List.mem_cons.mp hmem with he | hmem'
        · rw [he]
          exact sortedKeys_head_lt (a := s.1)
            (l := srest.map (·.1) ++ k :: rest.map (·.1)) (by simpa using h) k
            (List.mem_append_right _ (List.mem_cons_self _ _))
        · exact ihs (sortedKeys_tail (by simpa using h)) hmem'
    have hnone : tget st k = none :=
      tget_none_of_forall_ne fun p hp => keyLt_ne (hstlt p hp)
    simp only [mergeList, hnone]
    rw [tinsert_append_of_all_lt hstlt]
    have h' : sortedKeys ((st ++ [(k, ov)]).map (·.1) ++ rest.map (·.1)) = true := by
      simpa using h
    rw [ih h']
    simp

/-- C3 counterexample: merging the empty table into the non-table value
`Integer 1` replaces it with the empty table instead of leaving it
unchanged, refuting `merge(v, empty_table) == v` for non-table `v`. -/
theorem C3_counterexample :
    mergeValue (Value.Integer 1) (Value.Table []) = Value.Table [] ∧
    Value.Table [] ≠ Value.Integer 1 :=
  ⟨rfl, by simp⟩

/-- C3 (amended): merging an empty table into `v` leaves `v` unchanged when
`v` is a `Table` (a non-table `v` is replaced by the empty table), and
merging `v` into an empty table yields `v` for every `v`. -/
theorem C3_merge_identity (v : Value) :
    (is_table v = true → mergeValue v (Value.Table []) = v) ∧
    (sortedValue v = true → mergeValue (Value.Table []) v = v) := by
  constructor
  · intro h
    cases v with
    | Table t => simp [mergeValue, mergeList]
    | Null => simp [is_table] at h
    | Bool b => simp [is_table] at h
    | Integer i => simp [is_table] at h
    | Float f => simp [is_table] at h
    | String s => simp [is_table] at h
    | Array vs => simp [is_table] at h
  · intro h
    cases v with
    | Table t =>
      simp only [mergeValue]
      have hs : sortedKeys (([] : List (Str × Value)).map (·.1) ++ t.map (·.1)) = true := by
        simp only [sortedValue, Bool.and_eq_true] at h
        simpa using h.1
      rw [mergeList_append hs]
      simp
    | Null => rfl
    | Bool b => rfl
    | Integer i => rfl
    | Float f => rfl
    | String s => rfl
    | Array vs => rfl

/-- C3 witness: both amended identities evaluated at the concrete table
`{a: 1}`, with the table-ness and sortedness hypotheses discharged by
evaluation. -/
theorem C3_merge_identity_witness :
    mergeValue (Value.Table [("a".data, Value.Integer 1)]) (Value.Table []) =
      Value.Table [("a".data, Value.Integer 1)] ∧
    mergeValue (Value.Table []) (Value.Table [("a".data, Value.Integer 1)]) =
      Value.Table [("a".data, Value.Integer 1)] :=
  ⟨(C3_merge_identity (Value.Table [("a".data, Value.Integer 1)])).1 rfl,
   (C3_merge_identity (Value.Table [("a".data, Value.Integer 1)])).2 rfl⟩

/-- C7 counterexample: `set` with the empty path does not set — it returns
`KeyNotFound("")` and leaves the value unchanged, refuting the claim that
`set("", v)` succeeds and makes the value `v`. -/
theorem C7_counterexample :
    set_nested Value.Null [] (Value.Integer 1) =
      (Except.error (Err.key_not_found []), Value.Null) ∧
    Value.Null ≠ Value.Integer 1 :=
  ⟨rfl, by simp⟩

/-- C7 (amended): with the empty path, `get` returns the value itself,
`get_mut` returns it, and `remove` returns it while replacing the tree with
`Null`; `set`, however, fails with `KeyNotFound` and leaves the value
unchanged. -/
theorem C7_empty_path (v w : Value) :
    getPath v [] = some v ∧
    get_mut_nested v [] = Except.ok v ∧
    removePath v [] = (Except.ok (some v), Value.Null) ∧
    set_nested v [] w = (Except.error (Err.key_not_found []), v) := by
  refine ⟨?_, ?_, ?_, ?_⟩ <;> simp [getPath, get_mut_nested, removePath, set_nested]

/-- C4 counterexample: input whose only special syntax is a `${...}`
interpolation marker is detected as HCL, not as the advanced (noml)
dialect, because `contains_hcl_features` treats any line containing both
`"${"` and `"}"` as HCL and runs before the noml check. -/
theorem C4_counterexample :
    detect_format "a = $\x7bb\x7d".data = "hcl" ∧ ("hcl" : String) ≠ "noml" :=
  ⟨rfl, by decide⟩

/-- C4 (amended): a line containing both `"${"` and `"}"` triggers HCL
detection (rules 1–2 permitting); the advanced dialect only wins when no
line closes the interpolation on the same line. -/
theorem C4_hcl_interpolation (content : Str)
    (h1 : startsWithStr (rust_trim content) "<".data = false)
    (h2 : startsWithStr (rust_trim content) "\x7b".data = false)
    (h3 : startsWithStr (rust_trim content) "[".data = false)
    (h4 : (rustLines content).any (fun l =>
        containsStr (rust_trim l) "$\x7b".data &&
        containsStr (rust_trim l) "\x7d".data) = true) :
    detect_format content = "hcl" := by
  have hh : contains_hcl_features content = true := by
    rw [contains_hcl_features, List.any_eq_true]
    rw [List.any_eq_true] at h4
    obtain ⟨l, hl, hc⟩ := h4
    rw [Bool.and_eq_true] at hc
    exact ⟨l, hl, by simp [hc.1, hc.2]⟩
  rw [detect_format]
  simp [h1, h2, h3, hh]

/-- C4 witness: the amended rule evaluated at `"a = ${b}"`. -/
theorem C4_hcl_interpolation_witness :
    startsWithStr (rust_trim "a = $\x7bb\x7d".data) "<".data = false ∧
    startsWithStr (rust_trim "a = $\x7bb\x7d".data) "\x7b".data = false ∧
    startsWithStr (rust_trim "a = $\x7bb\x7d".data) "[".data = false ∧
    (rustLines "a = $\x7bb\x7d".data).any (fun l =>
        containsStr (rust_trim l) "$\x7b".data &&
        containsStr (rust_trim l) "\x7d".data) = true ∧
    detect_format "a = $\x7bb\x7d".data = "hcl" :=
  ⟨rfl, rfl, rfl, rfl, C4_hcl_interpolation _ rfl rfl rfl rfl⟩

/-- C5 counterexample: the integral JSON number 2^63 exceeds the `i64`
range, yet the adapter converts it to a `Float` (through serde_json's
`u64`-then-`as_f64` path) instead of returning an explicit error. -/
theorem C5_counterexample :
    convert_json_value (JVal.num (serdeNumOfInt (2 ^ 63))) =
      Except.ok (Value.Float (FVal.finite ((2 ^ 63 : ℕ) : ℚ))) := by
  have h1 : (0 : Int) ≤ 2 ^ 63 ∧ (2 ^ 63 : Int) ≤ (u64Max : Int) := by decide
  have h2 : ¬ (((2 ^ 63 : Int).toNat : Int) ≤ i64Max) := by decide
  rw [serdeNumOfInt, if_pos h1]
  simp only [convert_json_value, jnumAsI64, if_neg h2, jnumAsF64]
  congr 3

/-- C5 (amended): integral JSON numbers within `i64` range become
`Integer`; integral numbers beyond `i64` (through `u64`) are silently
converted to `Float`, not an explicit error; numbers with a
fractional/exponent part (serde `f64`) become `Float`.  The error branch of
`convert_json_value` is unreachable for numbers serde_json produces. -/
theorem C5_number_conversion :
    (∀ n : Int, i64Min ≤ n → n ≤ (u64Max : Int) →
      convert_json_value (JVal.num (serdeNumOfInt n)) =
        (if n ≤ i64Max then Except.ok (Value.Integer n)
         else Except.ok (Value.Float (FVal.finite (n : ℚ))))) ∧
    (∀ f : FVal,
      convert_json_value (JVal.num (JNum.float f)) = Except.ok (Value.Float f)) := by
  constructor
  · intro n h1 h2
    by_cases h0 : 0 ≤ n
    · rw [serdeNumOfInt, if_pos ⟨h0, h2⟩]
      by_cases hle : n ≤ i64Max
      · rw [if_pos hle]
        have hc : ((n.toNat : Int) ≤ i64Max) := by
          rwa [Int.toNat_of_nonneg h0]
        simp only [convert_json_value, jnumAsI64, Int.toNat_of_nonneg h0]
        rw [if_pos hle]
      · rw [if_neg hle]
        have : ¬ ((n.toNat : Int) ≤ i64Max) := by
          rwa [Int.toNat_of_nonneg h0]
        simp only [convert_json_value, jnumAsI64, if_neg this, jnumAsF64]
        congr 2
        rw [show ((n.toNat : ℚ) = (n : ℚ)) from by
          rw [← Int.cast_natCast, Int.toNat_of_nonneg h0]]
    · have hneg : n < 0 := lt_of_not_ge h0
      rw [serdeNumOfInt, if_neg (by intro hx; exact h0 hx.1), if_pos ⟨h1, hneg⟩]
      have hle : n ≤ i64Max := le_trans (le_of_lt hneg) (by rw [i64Max]; positivity)
      rw [if_pos hle]
      simp [convert_json_value, jnumAsI64]
  · intro f
    rfl

/-- C5 witness: the amended conversion evaluated at the in-range integral
number 2^62. -/
theorem C5_number_conversion_witness :
    i64Min ≤ (2 ^ 62 : Int) ∧ (2 ^ 62 : Int) ≤ (u64Max : Int) ∧
    convert_json_value (JVal.num (serdeNumOfInt (2 ^ 62))) =
      (if (2 ^ 62 : Int) ≤ i64Max then Except.ok (Value.Integer (2 ^ 62))
       else Except.ok (Value.Float (FVal.finite ((2 ^ 62 : Int) : ℚ)))) :=
  ⟨by decide, by decide, C5_number_conversion.1 (2 ^ 62) (by decide) (by decide)⟩

/-- C6 counterexample: the text `1` is typed `Bool true` by the INI
inference (which adds `"1"`/`"0"` to the boolean keywords) but `Integer 1`
by the CONF inference. -/
theorem C6_counterexample :
    ini_parse_typed_value "1".data = Value.Bool true ∧
    conf_type_unquoted "1".data = Value.Integer 1 ∧
    Value.Bool true ≠ Value.Integer 1 :=
  ⟨rfl, rfl, by simp⟩

/-- C6 (amended): on single-token texts (no space or comma) the INI and
CONF inferences agree except on `"1"`/`"0"` (INI: booleans, CONF: integers)
and on `"null"`/`"nil"`/the empty text (CONF: `Null`, INI: string/empty
string), comparing lowercased text. -/
theorem C6_inference_agree (t : Str)
    (hsp : t.contains ' ' = false) (hcm : t.contains ',' = false)
    (hne : t ≠ [])
    (h1 : asciiLower t ≠ "1".data) (h0 : asciiLower t ≠ "0".data)
    (hnull : asciiLower t ≠ "null".data) (hnil : asciiLower t ≠ "nil".data) :
    ini_parse_typed_value t = conf_type_unquoted t := by
  have hlowne : asciiLower t ≠ [] := by
    intro hx
    apply hne
    cases t with
    | nil => rfl
    | cons c r => simp [asciiLower] at hx
  simp only [ini_parse_typed_value, conf_type_unquoted]
  rw [if_neg hne, if_neg hne]
  by_cases hb1 : asciiLower t = "true".data ∨ asciiLower t = "yes".data ∨
      asciiLower t = "on".data
  · rw [if_pos (by tauto), if_pos hb1]
  · rw [if_neg (by tauto), if_neg hb1]
    by_cases hb2 : asciiLower t = "false".data ∨ asciiLower t = "no".data ∨
        asciiLower t = "off".data
    · rw [if_pos (by tauto), if_pos hb2]
    · rw [if_neg (by tauto), if_neg hb2]
      rw [if_neg (by tauto)]
      simp only [hsp, hcm, Bool.or_self]
      rfl

/-- C6 witness: both inferences agree on the token `42`. -/
theorem C6_inference_agree_witness :
    ("42".data.contains ' ' = false) ∧ ("42".data.contains ',' = false) ∧
    ini_parse_typed_value "42".data = conf_type_unquoted "42".data :=
  ⟨rfl, rfl,
    C6_inference_agree "42".data rfl rfl (by simp) (by simp [asciiLower, asciiLowerChar])
      (by simp [asciiLower, asciiLowerChar]) (by simp [asciiLower, asciiLowerChar])
      (by simp [asciiLower, asciiLowerChar])⟩

lemma noEmptyPairs_tget {t : List (Str × Value)} {k : Str} {sub : Value}
    (h : noEmptyPairs t = true) (hg : tget t k = some sub) :
    noEmptyKeys sub = true := by
  induction t with
  | nil => simp [tget] at hg
  | cons p rest ih =>
    obtain ⟨k', v'⟩ := p
    simp only [noEmptyPairs, Bool.and_eq_true] at h
    simp only [tget] at hg
    by_cases hk : k = k'
    · rw [if_pos hk] at hg
      cases hg
      exact h.1
    · rw [if_neg hk] at hg
      exact ih h.2 hg

lemma noEmpty_tinsert {t : List (Str × Value)} {k : Str} {v : Value}
    (hk1 : ((t.map (·.1)).all (· != [])) = true)
    (hk2 : noEmptyPairs t = true)
    (hk : k ≠ []) (hv : noEmptyKeys v = true) :
    (((tinsert t k v).map (·.1)).all (· != [])) = true ∧
      noEmptyPairs (tinsert t k v) = true := by
  induction t with
  | nil =>
    constructor
    · simp [tinsert, hk]
    · simp [tinsert, noEmptyPairs, hv]
  | cons p rest ih =>
    obtain ⟨k', v'⟩ := p
    simp only [List.map_cons, List.all_cons, Bool.and_eq_true] at hk1
    simp only [noEmptyPairs, Bool.and_eq_true] at hk2
    simp only [tinsert]
    by_cases h1 : keyLt k k' = true
    · rw [if_pos h1]
      refine ⟨?_, ?_⟩
      · simp [hk, hk1.1, hk1.2]
      · simp [noEmptyPairs, hv, hk2.1, hk2.2]
    · rw [if_neg h1]
      by_cases h2 : keyLt k' k = true
      · rw [if_pos h2]
        obtain ⟨ha, hb⟩ := ih hk1.2 hk2.2
        refine ⟨?_, ?_⟩
        · simp [hk1.1, ha]
        · simp [noEmptyPairs, hk2.1, hb]
      · rw [if_neg h2]
        refine ⟨?_, ?_⟩
        · simp [hk, hk1.2]
        · simp [noEmptyPairs, hv, hk2.2]

lemma setGo_noEmpty (parts : List Str) (cur : Value) (last : Str) (val : Value)
    (hc : noEmptyKeys cur = true) (hv : noEmptyKeys val = true)
    (hp : ∀ p ∈ parts, p ≠ []) (hl : last ≠ []) :
    noEmptyKeys (setGo cur parts last val).2 = true := by
  induction parts generalizing cur with
  | nil =>
    cases cur with
    | Table t =>
      simp only [noEmptyKeys, Bool.and_eq_true] at hc
      have := noEmpty_tinsert (t := t) hc.1 hc.2 hl hv
      simp [setGo, noEmptyKeys, this.1, this.2]
    | Null => exact hc
    | Bool b => exact hc
    | Integer i => exact hc
    | Float f => exact hc
    | String s => exact hc
    | Array vs => exact hc
  | cons part rest ih =>
    have hpart : part ≠ [] := hp part (by simp)
    have hrest : ∀ p ∈ rest, p ≠ [] := fun p hp' => hp p (by simp [hp'])
    cases cur with
    | Table t =>
      simp only [noEmptyKeys, Bool.and_eq_true] at hc
      cases hg : tget t part with
      | some sub =>
        have hsub : noEmptyKeys sub = true := noEmptyPairs_tget hc.2 hg
        have hrec := ih sub hsub hrest
        have := noEmpty_tinsert (t := t) (k := part)
          (v := (setGo sub rest last val).2) hc.1 hc.2 hpart hrec
        simp [setGo, hg, noEmptyKeys, this.1, this.2]
      | none =>
        have hrec := ih (Value.Table []) rfl hrest
        have := noEmpty_tinsert (t := t) (k := part)
          (v := (setGo (Value.Table []) rest last val).2) hc.1 hc.2 hpart hrec
        simp [setGo, hg, noEmptyKeys, this.1, this.2]
    | Null => exact hc
    | Bool b => exact hc
    | Integer i => exact hc
    | Float f => exact hc
    | String s => exact hc
    | Array vs => exact hc

lemma splitLast_mem (l : List Str) (hne : l ≠ []) :
    (splitLast l).1 ∈ l ∧ ∀ x ∈ (splitLast l).2, x ∈ l := by
  induction l with
  | nil => exact absurd rfl hne
  | cons a rest ih =>
    cases rest with
    | nil => simp [splitLast]
    | cons b t =>
      obtain ⟨h1, h2⟩ := ih (by simp)
      constructor
      · simp only [splitLast]
        exact List.mem_cons_of_mem _ h1
      · intro x hx
        simp only [splitLast] at hx
        rcases List.mem_cons.mp hx with he | hx'
        · simp [he]
        · exact List.mem_cons_of_mem _ (h2 x hx')

/-- C9 counterexample: `set` with the path `".a"` (leading dot) inserts an
empty-string key, violating the no-empty-keys invariant. -/
theorem C9_counterexample :
    noEmptyKeys (set_nested (Value.Table []) ".a".data (Value.Integer 1)).2 = false :=
  rfl

/-- C9 (amended): `set` preserves the no-empty-keys invariant provided
every dot-separated segment of the path is nonempty (with leading,
trailing, or consecutive dots it inserts empty-string keys; the CONF parser
can likewise produce an empty section key from `[]`). -/
theorem C9_set_no_empty_keys (t : Value) (p : Str) (v : Value)
    (h1 : noEmptyKeys t = true) (h2 : noEmptyKeys v = true)
    (h3 : (splitChar '.' p).all (fun s => !(s == [])) = true) :
    noEmptyKeys (set_nested t p v).2 = true := by
  have hall : ∀ s ∈ splitChar '.' p, s ≠ [] := by
    intro s hs
    have := List.all_eq_true.mp h3 s hs
    simpa using this
  have hpne : p ≠ [] := by
    intro he
    subst he
    have := hall [] (by simp [splitChar])
    exact this rfl
  rw [set_nested, if_neg hpne]
  have hne : splitChar '.' p ≠ [] := by
    cases hsp : splitChar '.' p with
    | nil =>
      cases p with
      | nil => exact absurd rfl hpne
      | cons c r =>
        simp only [splitChar] at hsp
        by_cases hc : c = '.'
        · rw [if_pos hc] at hsp
          cases hsp
        · rw [if_neg hc] at hsp
          rcases hx : splitChar '.' r with _ | ⟨h', t'⟩ <;> rw [hx] at hsp <;> cases hsp
    | cons a l => simp
  obtain ⟨hlast, hinit⟩ := splitLast_mem _ hne
  exact setGo_noEmpty _ _ _ _ h1 h2
    (fun q hq => hall q (hinit q hq)) (hall _ hlast)

/-- C9 witness: the amended preservation evaluated at `t = {}`,
`p = "a.b"`, `v = 1`. -/
theorem C9_set_no_empty_keys_witness :
    noEmptyKeys (Value.Table []) = true ∧
    (splitChar '.' "a.b".data).all (fun s => !(s == [])) = true ∧
    noEmptyKeys (set_nested (Value.Table []) "a.b".data (Value.Integer 1)).2 = true :=
  ⟨rfl, rfl, C9_set_no_empty_keys (Value.Table []) "a.b".data (Value.Integer 1) rfl rfl rfl⟩

lemma sortedPairs_tget {t : List (Str × Value)} {k : Str} {sub : Value}
    (h : sortedPairs t = true) (hg : tget t k = some sub) :
    sortedValue sub = true := by
  induction t with
  | nil => simp [tget] at hg
  | cons p rest ih =>
    obtain ⟨k', v'⟩ := p
    simp only [sortedPairs, Bool.and_eq_true] at h
    simp only [tget] at hg
    by_cases hk : k = k'
    · rw [if_pos hk] at hg
      cases hg
      exact h.1
    · rw [if_neg hk] at hg
      exact ih h.2 hg

lemma setGo_fresh_ok (rest : List Str) (last : Str) (val : Value) :
    (setGo (Value.Table []) rest last val).1 = Except.ok () := by
  induction rest with
  | nil => rfl
  | cons part r ih => simp [setGo, tget, ih]

lemma setGo_error_unchanged (parts : List Str) (cur : Value) (last : Str)
    (val : Value) (e : Err) (hs : sortedValue cur = true)
    (he : (setGo cur parts last val).1 = Except.error e) :
    (setGo cur parts last val).2 = cur := by
  induction parts generalizing cur with
  | nil =>
    cases cur with
    | Table t => simp [setGo] at he
    | Null => rfl
    | Bool b => rfl
    | Integer i => rfl
    | Float f => rfl
    | String s => rfl
    | Array vs => rfl
  | cons part rest ih =>
    cases cur with
    | Table t =>
      simp only [sortedValue, Bool.and_eq_true] at hs
      cases hg : tget t part with
      | some sub =>
        simp only [setGo, hg] at he ⊢
        have hsub : sortedValue sub = true := sortedPairs_tget hs.2 hg
        have h2 := ih sub hsub he
        rw [h2]
        rw [tinsert_found hs.1 hg]
      | none =>
        simp only [setGo, hg] at he
        rw [setGo_fresh_ok] at he
        cases he
    | Null => rfl
    | Bool b => rfl
    | Integer i => rfl
    | Float f => rfl
    | String s => rfl
    | Array vs => rfl

/-- C10: `set_nested` is atomic — whenever it returns an error, the tree is
exactly as it was before the call (an error can only arise from hitting an
existing non-table, and in that case no `entry(..).or_insert` along the way
created anything). -/
theorem C10_set_atomic (t : Value) (p : Str) (v : Value) (e : Err)
    (hs : sortedValue t = true)
    (he : (set_nested t p v).1 = Except.error e) :
    (set_nested t p v).2 = t := by
  rw [set_nested] at he ⊢
  by_cases hp : p = []
  · rw [if_pos hp]
  · rw [if_neg hp] at he ⊢
    exact setGo_error_unchanged _ _ _ _ e hs he

/-- C10 witness: setting `a.b` in `{a: 1}` fails with a type error (the
intermediate `a` holds an integer) and leaves the tree unchanged. -/
theorem C10_set_atomic_witness :
    sortedValue (Value.Table [("a".data, Value.Integer 1)]) = true ∧
    (set_nested (Value.Table [("a".data, Value.Integer 1)]) "a.b".data Value.Null).1 =
      Except.error (Err.TypeMismatch ("Cannot set key in non-table".data)
        ("table".data) ("integer".data)) ∧
    (set_nested (Value.Table [("a".data, Value.Integer 1)]) "a.b".data Value.Null).2 =
      Value.Table [("a".data, Value.Integer 1)] :=
  ⟨rfl, rfl,
    C10_set_atomic (Value.Table [("a".data, Value.Integer 1)]) "a.b".data Value.Null
      (Err.TypeMismatch ("Cannot set key in non-table".data) ("table".data)
        ("integer".data)) rfl rfl⟩

/-- C1: the CONF parser does not return a `ParseError` on the two-byte
character `é` — it panics.  `position` counts characters, but `is_at_end`
and the value slice `&input[start..position]` interpret it as a byte index,
so the slice boundary falls inside the character (`panicked` models the
Rust byte-slice panic). -/
theorem C1_conf_panics : conf_parse "k = é".data = COut.panicked := rfl

/-- ASCII character predicate (one UTF-8 byte). -/
def isAsciiChar (c : Char) : Bool :=
  c.toNat < 128

/-- Advance `k` characters. -/
def stepN (input : Str) (st : CSt) : Nat → CSt
  | 0 => st
  | k + 1 => stepN input (advSt input st) k

lemma peekAt_of_drop {input : Str} {st : CSt} {c : Char} {r : Str}
    (h : input.drop st.pos = c :: r) : peekAt input st = some c := by
  rw [peekAt, List.get?_eq_getElem?, ← List.head?_drop, h]
  rfl

lemma peekAt_none_of_drop {input : Str} {st : CSt}
    (h : input.drop st.pos = []) : peekAt input st = none := by
  rw [peekAt, List.get?_eq_getElem?, ← List.head?_drop, h]
  rfl

lemma drop_succ_of_drop {input : Str} {pos : Nat} {c : Char} {r : Str}
    (h : input.drop pos = c :: r) : input.drop (pos + 1) = r := by
  rw [← List.drop_drop, h]
  rfl

lemma advSt_pos {input : Str} {st : CSt} {c : Char} {r : Str}
    (h : input.drop st.pos = c :: r) : (advSt input st).pos = st.pos + 1 := by
  rw [advSt, peekAt_of_drop h]
  by_cases hc : c = '\n' <;> simp [hc]

lemma advSt_drop {input : Str} {st : CSt} {c : Char} {r : Str}
    (h : input.drop st.pos = c :: r) : input.drop (advSt input st).pos = r := by
  rw [advSt_pos h]
  exact drop_succ_of_drop h

lemma stepN_pos {input : Str} : ∀ (k : Nat) (st : CSt) (x : Str) (r : Str),
    input.drop st.pos = x ++ r → x.length = k → (stepN input st k).pos = st.pos + k ∧
      input.drop (st.pos + k) = r := by
  intro k
  induction k with
  | zero =>
    intro st x r h hx
    have : x = [] := List.eq_nil_of_length_eq_zero hx
    subst this
    simpa [stepN] using h
  | succ k ih =>
    intro st x r h hx
    cases x with
    | nil => simp at hx
    | cons c xs =>
      rw [List.cons_append] at h
      have h1 := advSt_pos h
      have h2 := advSt_drop h
      simp only [List.length_cons, Nat.succ.injEq] at hx
      have := ih (advSt input st) xs r (by rw [h2]) hx
      rw [stepN]
      refine ⟨?_, ?_⟩
      · rw [this.1, h1]
        omega
      · have := this.2
        rw [h1] at this
        rwa [show st.pos + 1 + k = st.pos + (k + 1) from by omega] at this

lemma stepN_state {input : Str} : ∀ (k : Nat) (st : CSt) (x : Str) (r : Str),
    input.drop st.pos = x ++ r → x.length = k →
      input.drop (stepN input st k).pos = r := by
  intro k st x r h hx
  obtain ⟨h1, h2⟩ := stepN_pos k st x r h hx
  rw [h1]
  exact h2

lemma ascii_utf8Size {c : Char} (h : isAsciiChar c = true) : rustUtf8Size c = 1 := by
  rw [isAsciiChar, decide_eq_true_eq] at h
  rw [rustUtf8Size, if_pos (by omega)]

lemma ascii_utf8Len {s : Str} (h : s.all isAsciiChar = true) :
    utf8Len s = s.length := by
  induction s with
  | nil => rfl
  | cons c r ih =>
    simp only [List.all_cons, Bool.and_eq_true] at h
    simp [utf8Len, List.map_cons, List.sum_cons, ascii_utf8Size h.1]
    have := ih h.2
    rw [utf8Len] at this
    omega

lemma dropBytes_ascii : ∀ (s : Str) (n : Nat), s.all isAsciiChar = true →
    n ≤ s.length → dropBytes s n = some (s.drop n) := by
  intro s
  induction s with
  | nil =>
    intro n _ hn
    have : n = 0 := Nat.le_zero.mp (by simpa using hn)
    subst this
    rfl
  | cons c r ih =>
    intro n h hn
    simp only [List.all_cons, Bool.and_eq_true] at h
    cases n with
    | zero => rfl
    | succ m =>
      rw [dropBytes, if_pos (by rw [ascii_utf8Size h.1]; omega)]
      rw [ascii_utf8Size h.1]
      simp only [Nat.add_sub_cancel]
      rw [ih m h.2 (by simpa using hn)]
      rfl

lemma takeBytes_ascii : ∀ (x : Str) (s : Str), x.all isAsciiChar = true →
    takeBytes (x ++ s) x.length = some x := by
  intro x
  induction x with
  | nil =>
    intro s _
    simp only [List.nil_append, List.length_nil]
    cases s <;> rfl
  | cons c r ih =>
    intro s h
    simp only [List.all_cons, Bool.and_eq_true] at h
    rw [List.cons_append, List.length_cons, takeBytes,
      if_pos (by rw [ascii_utf8Size h.1]; omega), ascii_utf8Size h.1]
    simp only [Nat.add_sub_cancel]
    rw [ih s h.2]

lemma sliceBytes_ascii {input : Str} {pos : Nat} {x r : Str}
    (hall : input.all isAsciiChar = true)
    (h : input.drop pos = x ++ r) (hpos : pos ≤ input.length) :
    sliceBytes input pos (pos + x.length) = some x := by
  rw [sliceBytes, if_pos (by omega)]
  have hd : dropBytes input pos = some (input.drop pos) :=
    dropBytes_ascii input pos hall hpos
  rw [hd, h]
  simp only [Nat.add_sub_cancel_left]
  refine takeBytes_ascii x r ?_
  rw [List.all_eq_true] at hall ⊢
  intro c hc
  refine hall c ?_
  have : c ∈ input.drop pos := by
    rw [h]
    exact List.mem_append_left _ hc
  exact List.drop_subset _ _ this

lemma stepN_add (input : Str) : ∀ (a b : Nat) (st : CSt),
    stepN input (stepN input st a) b = stepN input st (a + b) := by
  intro a
  induction a with
  | zero => intro b st; simp [stepN]
  | succ a ih =>
    intro b st
    rw [stepN]
    rw [ih b (advSt input st)]
    rw [show a + 1 + b = (a + b) + 1 from by omega]
    rfl

lemma pos_lt_length_of_drop {input : Str} {pos : Nat} {c : Char} {r : Str}
    (h : input.drop pos = c :: r) : pos < input.length := by
  by_contra hc
  rw [List.drop_eq_nil_of_le (by omega)] at h
  cases h

lemma pos_le_length_of_drop {input : Str} {pos : Nat} {x r : Str}
    (h : input.drop pos = x ++ r) : x = [] ∨ pos < input.length := by
  cases x with
  | nil => exact Or.inl rfl
  | cons c t => exact Or.inr (pos_lt_length_of_drop (by simpa using h))

lemma skipWsGo_eq (input : Str) : ∀ (x : Str) (f : Nat) (st : CSt) (rest : Str),
    (∀ c ∈ x, c = ' ' ∨ c = '\t') → input.drop st.pos = x ++ rest →
    (∀ c, rest.head? = some c → ¬(c = ' ' ∨ c = '\t')) → x.length < f →
    skipWsGo input f st = stepN input st x.length := by
  intro x
  induction x with
  | nil =>
    intro f st rest _ hd hr _
    simp only [List.nil_append] at hd
    show skipWsGo input f st = st
    cases f with
    | zero => rfl
    | succ f =>
      rw [skipWsGo]
      cases hrest : rest with
      | nil =>
        rw [hrest] at hd
        rw [peekAt_none_of_drop hd]
      | cons c t =>
        rw [hrest] at hd hr
        rw [peekAt_of_drop hd]
        have hc := hr c rfl
        split
        · exact absurd (Or.inl rfl) (by rename_i heq; cases heq; exact hc)
        · exact absurd (Or.inr rfl) (by rename_i heq; cases heq; exact hc)
        · rfl
  | cons c xs ih =>
    intro f st rest hx hd hr hf
    rw [List.cons_append] at hd
    cases f with
    | zero => simp at hf
    | succ f =>
      have hp := peekAt_of_drop hd
      have hstep : skipWsGo input (f + 1) st = skipWsGo input f (advSt input st) := by
        rcases hx c (by simp) with hc | hc <;> (subst hc; rw [skipWsGo, hp]) <;> rfl
      rw [hstep, List.length_cons]
      have hd' : input.drop (advSt input st).pos = xs ++ rest := advSt_drop hd
      rw [ih f (advSt input st) rest (fun c' hc' => hx c' (by simp [hc'])) hd' hr
        (by simpa using hf)]
      rfl

lemma skip_whitespace_eq {input : Str} {st : CSt} {x rest : Str}
    (hx : ∀ c ∈ x, c = ' ' ∨ c = '\t') (hd : input.drop st.pos = x ++ rest)
    (hr : ∀ c, rest.head? = some c → ¬(c = ' ' ∨ c = '\t')) :
    skip_whitespace input st = stepN input st x.length := by
  have hlen : x.length < charFuel input := by
    have := congrArg List.length hd
    rw [List.length_drop, List.length_append] at this
    rw [charFuel]
    omega
  exact skipWsGo_eq input x (charFuel input) st rest hx hd hr hlen

lemma keyScanGo_eq (input : Str) : ∀ (x : Str) (f : Nat) (st : CSt) (rest : Str),
    (∀ c ∈ x, keyChar c = true) → input.drop st.pos = x ++ rest →
    (∀ c, rest.head? = some c → keyChar c = false) → x.length < f →
    keyScanGo input f st = stepN input st x.length := by
  intro x
  induction x with
  | nil =>
    intro f st rest _ hd hr _
    simp only [List.nil_append] at hd
    show keyScanGo input f st = st
    cases f with
    | zero => rfl
    | succ f =>
      rw [keyScanGo]
      cases hrest : rest with
      | nil =>
        rw [hrest] at hd
        rw [peekAt_none_of_drop hd]
      | cons c t =>
        rw [hrest] at hd hr
        rw [peekAt_of_drop hd]
        simp [hr c rfl]
  | cons c xs ih =>
    intro f st rest hx hd hr hf
    rw [List.cons_append] at hd
    cases f with
    | zero => simp at hf
    | succ f =>
      rw [keyScanGo, peekAt_of_drop hd]
      show (if keyChar c then keyScanGo input f (advSt input st) else st) = _
      rw [if_pos (hx c (by simp)), List.length_cons]
      have hd' : input.drop (advSt input st).pos = xs ++ rest := advSt_drop hd
      rw [ih f (advSt input st) rest (fun c' hc' => hx c' (by simp [hc'])) hd' hr
        (by simpa using hf)]
      rfl

lemma unqScanGo_eq (input : Str) : ∀ (x : Str) (f : Nat) (st : CSt) (rest : Str),
    (∀ c ∈ x, ¬(c = '\n' ∨ c = '\r' ∨ c = '#')) → input.drop st.pos = x ++ rest →
    (∀ c, rest.head? = some c → (c = '\n' ∨ c = '\r' ∨ c = '#')) → x.length < f →
    unqScanGo input f st = stepN input st x.length := by
  intro x
  induction x with
  | nil =>
    intro f st rest _ hd hr _
    simp only [List.nil_append] at hd
    show unqScanGo input f st = st
    cases f with
    | zero => rfl
    | succ f =>
      rw [unqScanGo]
      cases hrest : rest with
      | nil =>
        rw [hrest] at hd
        rw [peekAt_none_of_drop hd]
      | cons c t =>
        rw [hrest] at hd hr
        rw [peekAt_of_drop hd]
        simp [hr c rfl]
  | cons c xs ih =>
    intro f st rest hx hd hr hf
    rw [List.cons_append] at hd
    cases f with
    | zero => simp at hf
    | succ f =>
      rw [unqScanGo, peekAt_of_drop hd]
      show (if (c = '\n' ∨ c = '\r' ∨ c = '#') then st
        else unqScanGo input f (advSt input st)) = _
      rw [if_neg (hx c (by simp)), List.length_cons]
      have hd' : input.drop (advSt input st).pos = xs ++ rest := advSt_drop hd
      rw [ih f (advSt input st) rest (fun c' hc' => hx c' (by simp [hc'])) hd' hr
        (by simpa using hf)]
      rfl

lemma sectScanGo_eq (input : Str) : ∀ (x : Str) (f : Nat) (st : CSt) (rest : Str),
    (∀ c ∈ x, ¬(c = ']' ∨ c = '\n')) → input.drop st.pos = x ++ ']' :: rest →
    x.length < f →
    sectScanGo input f st = .ok () (stepN input st x.length) := by
  intro x
  induction x with
  | nil =>
    intro f st rest _ hd hf
    simp only [List.nil_append] at hd
    cases f with
    | zero => simp at hf
    | succ f =>
      rw [sectScanGo, peekAt_of_drop hd]
      rfl
  | cons c xs ih =>
    intro f st rest hx hd hf
    rw [List.cons_append] at hd
    cases f with
    | zero => simp at hf
    | succ f =>
      have hc := hx c (by simp)
      rw [sectScanGo, peekAt_of_drop hd, List.length_cons]
      have h1 : ¬ (c = ']') := fun he => hc (Or.inl he)
      have h2 : ¬ (c = '\n') := fun he => hc (Or.inr he)
      have hd' : input.drop (advSt input st).pos = xs ++ ']' :: rest := advSt_drop hd
      have := ih f (advSt input st) rest (fun c' hc' => hx c' (by simp [hc'])) hd'
        (by simpa using hf)
      split
      · rename_i heq
        cases heq
        exact absurd rfl h1
      · rename_i heq
        cases heq
        exact absurd rfl h2
      · rename_i c' heq _
        rw [show stepN input st (xs.length + 1) = stepN input (advSt input st) xs.length
          from rfl]
        exact this
      · rename_i heq
        cases heq

lemma drop_len_bound {input : Str} {pos : Nat} {x r : Str}
    (h : input.drop pos = x ++ r) (hp : pos ≤ input.length) :
    pos + x.length + r.length = input.length := by
  have := congrArg List.length h
  rw [List.length_drop, List.length_append] at this
  omega

lemma cexpect_eq {input : Str} {st : CSt} {c : Char} {r : Str}
    (hd : input.drop st.pos = c :: r) :
    cexpect input c st = .ok () (advSt input st) := by
  rw [cexpect, peekAt_of_drop hd]
  show (if c = c then PRes.ok () (advSt input st) else _) = _
  rw [if_pos rfl]

lemma parse_key_eq {input : Str} {st : CSt} {x rest : Str}
    (hall : input.all isAsciiChar = true)
    (hx : ∀ c ∈ x, keyChar c = true) (hne : x ≠ [])
    (hd : input.drop st.pos = x ++ rest)
    (hr : ∀ c, rest.head? = some c → keyChar c = false) :
    parse_key input st = .ok x (stepN input st x.length) := by
  obtain ⟨c0, x', rfl⟩ : ∃ c0 x', x = c0 :: x' := by
    cases x with
    | nil => exact absurd rfl hne
    | cons a b => exact ⟨a, b, rfl⟩
  have hposlt : st.pos < input.length := pos_lt_length_of_drop (by simpa using hd)
  have hlen : (c0 :: x').length < charFuel input := by
    have := drop_len_bound hd (by omega)
    rw [charFuel]
    omega
  have hscan : keyScanGo input (charFuel input) st = stepN input st (c0 :: x').length :=
    keyScanGo_eq input (c0 :: x') (charFuel input) st rest hx hd hr hlen
  have hpos := (stepN_pos (c0 :: x').length st (c0 :: x') rest hd rfl).1
  rw [parse_key, hscan]
  rw [if_neg (by rw [hpos]; simp)]
  rw [hpos]
  rw [sliceBytes_ascii hall hd (by omega)]

lemma parse_unquoted_eq {input : Str} {st : CSt} {x rest : Str}
    (hall : input.all isAsciiChar = true)
    (hx : ∀ c ∈ x, ¬(c = '\n' ∨ c = '\r' ∨ c = '#'))
    (hd : input.drop st.pos = x ++ rest)
    (hr : ∀ c, rest.head? = some c → (c = '\n' ∨ c = '\r' ∨ c = '#'))
    (hp : st.pos ≤ input.length) :
    parse_unquoted_value input st =
      .ok (conf_type_unquoted (rust_trim x)) (stepN input st x.length) := by
  have hlen : x.length < charFuel input := by
    have := drop_len_bound hd hp
    rw [charFuel]
    omega
  have hscan : unqScanGo input (charFuel input) st = stepN input st x.length :=
    unqScanGo_eq input x (charFuel input) st rest hx hd hr hlen
  have hpos := (stepN_pos x.length st x rest hd rfl).1
  rw [parse_unquoted_value, hscan, hpos]
  rw [sliceBytes_ascii hall hd hp]

lemma parse_value_unquoted {input : Str} {st : CSt} {x rest : Str}
    (hall : input.all isAsciiChar = true) (f : Nat)
    (hx : ∀ c ∈ x, ¬(c = '\n' ∨ c = '\r' ∨ c = '#'))
    (hd : input.drop st.pos = x ++ rest)
    (hr : ∀ c, rest.head? = some c → (c = '\n' ∨ c = '\r' ∨ c = '#'))
    (hh : ∀ c, (x ++ rest).head? = some c →
      ¬(c = ' ' ∨ c = '\t') ∧ c ≠ dquoteChar ∧ c ≠ squoteChar ∧ c ≠ '[')
    (hp : st.pos ≤ input.length) :
    parse_value input (f + 1) st =
      .ok (conf_type_unquoted (rust_trim x)) (stepN input st x.length) := by
  have hws : skip_whitespace input st = stepN input st ([] : Str).length :=
    skip_whitespace_eq (by intro c hc; cases hc) (by simpa using hd)
      (by
        intro c hc
        rcases x with _ | ⟨c0, x'⟩
        · exact (hh c (by simpa using hc)).1
        · exact (hh c (by simpa using hc)).1)
  rw [parse_value, hws]
  show (match peekAt input st with
    | some c =>
      if c = dquoteChar then parse_quoted_string input st
      else if c = squoteChar then parse_single_quoted_string input st
      else if c = '[' then parse_array input f st
      else parse_unquoted_value input st
    | none => parse_unquoted_value input st) = _
  have hrest := parse_unquoted_eq hall hx hd hr hp
  cases hxr : (x ++ rest) with
  | nil =>
    rw [hxr] at hd
    rw [peekAt_none_of_drop hd]
    exact hrest
  | cons c t =>
    rw [hxr] at hd
    have hc := hh c (by rw [hxr]; rfl)
    rw [peekAt_of_drop hd]
    show (if c = dquoteChar then parse_quoted_string input st
      else if c = squoteChar then parse_single_quoted_string input st
      else if c = '[' then parse_array input f st
      else parse_unquoted_value input st) = _
    rw [if_neg hc.2.1, if_neg hc.2.2.1, if_neg hc.2.2.2]
    exact hrest

lemma parse_section_header_eq {input : Str} {st : CSt} {name rest : Str}
    (hall : input.all isAsciiChar = true)
    (hn : ∀ c ∈ name, ¬(c = ']' ∨ c = '\n'))
    (htrim : rust_trim name = name)
    (hd : input.drop st.pos = '[' :: (name ++ ']' :: rest)) :
    parse_section_header input st =
      .ok name (stepN input st (name.length + 2)) := by
  have hposlt : st.pos < input.length := pos_lt_length_of_drop hd
  have hd1 : input.drop (advSt input st).pos = name ++ ']' :: rest := advSt_drop hd
  have hlen : name.length < charFuel input := by
    have := drop_len_bound hd1 (by rw [advSt_pos hd]; omega)
    rw [charFuel]
    omega
  have hscan := sectScanGo_eq input name (charFuel input) (advSt input st) rest hn hd1 hlen
  rw [parse_section_header, cexpect_eq hd]
  rw [PRes.bind, hscan, PRes.bind]
  have hpos1 := advSt_pos hd
  have hpos2 := (stepN_pos name.length (advSt input st) name (']' :: rest) hd1 rfl).1
  have hle1 : (advSt input st).pos ≤ input.length := by
    rw [hpos1]
    omega
  have hsl := sliceBytes_ascii hall hd1 hle1
  rw [hpos2, hsl]
  show ((cexpect input ']' (stepN input (advSt input st) name.length)).bind
    fun _ st3 => PRes.ok (rust_trim name) st3) = _
  rw [htrim]
  have hd2 : input.drop (stepN input (advSt input st) name.length).pos = ']' :: rest := by
    have h2 := (stepN_pos name.length (advSt input st) name (']' :: rest) hd1 rfl).2
    rw [hpos2]
    exact h2
  rw [cexpect_eq hd2]
  show PRes.ok name (advSt input (stepN input (advSt input st) name.length)) = _
  congr 1
  have e1 : advSt input (stepN input (advSt input st) name.length) =
      stepN input (stepN input (advSt input st) name.length) 1 := rfl
  rw [e1, stepN_add]
  have e2 : advSt input st = stepN input st 1 := rfl
  rw [e2, stepN_add]
  congr 1
  omega

lemma parse_key_value_eq {input : Str} {st : CSt} {k fv rest : Str} (f : Nat)
    (hall : input.all isAsciiChar = true) (hp : st.pos ≤ input.length)
    (hk1 : k ≠ []) (hk2 : ∀ c ∈ k, keyChar c = true)
    (hfv : ∀ c ∈ fv, ¬(c = '\n' ∨ c = '\r' ∨ c = '#'))
    (hh : ∀ c, (fv ++ rest).head? = some c →
      ¬(c = ' ' ∨ c = '\t') ∧ c ≠ dquoteChar ∧ c ≠ squoteChar ∧ c ≠ '[')
    (hr : ∀ c, rest.head? = some c → (c = '\n' ∨ c = '\r' ∨ c = '#'))
    (hd : input.drop st.pos = k ++ ' ' :: '=' :: ' ' :: (fv ++ rest)) :
    parse_key_value input (f + 1) st =
      .ok (k, conf_type_unquoted (rust_trim fv))
        (stepN input st (k.length + 3 + fv.length)) := by
  have hkey := parse_key_eq hall hk2 hk1 hd
    (fun c hc => by
      cases hc
      rfl)
  rw [parse_key_value, hkey, PRes.bind]
  have hd1 : input.drop (stepN input st k.length).pos =
      ' ' :: '=' :: ' ' :: (fv ++ rest) := stepN_state k.length st k _ hd rfl
  have hws1 : skip_whitespace input (stepN input st k.length) =
      stepN input (stepN input st k.length) 1 := by
    have := @skip_whitespace_eq input (stepN input st k.length) [' ']
      ('=' :: ' ' :: (fv ++ rest))
      (by intro c hc; simp at hc; exact Or.inl hc) (by simpa using hd1)
      (by intro c hc; cases hc; simp)
    simpa using this
  rw [hws1]
  have hd2 : input.drop (stepN input (stepN input st k.length) 1).pos =
      '=' :: ' ' :: (fv ++ rest) :=
    stepN_state 1 _ [' '] _ (by simpa using hd1) rfl
  show ((cexpect input '=' (stepN input (stepN input st k.length) 1)).bind fun _ st3 =>
    (parse_value input (f + 1) (skip_whitespace input st3)).bind fun v st5 =>
      PRes.ok (k, v) st5) = _
  rw [cexpect_eq hd2, PRes.bind]
  have hd3 : input.drop (advSt input (stepN input (stepN input st k.length) 1)).pos =
      ' ' :: (fv ++ rest) := advSt_drop hd2
  have hws2 : skip_whitespace input (advSt input (stepN input (stepN input st k.length) 1)) =
      stepN input (advSt input (stepN input (stepN input st k.length) 1)) 1 := by
    have := @skip_whitespace_eq input
      (advSt input (stepN input (stepN input st k.length) 1)) [' '] (fv ++ rest)
      (by intro c hc; simp at hc; exact Or.inl hc) (by simpa using hd3)
      (by intro c hc; exact (hh c hc).1)
    simpa using this
  rw [hws2]
  have hd4 : input.drop
      (stepN input (advSt input (stepN input (stepN input st k.length) 1)) 1).pos =
      fv ++ rest :=
    stepN_state 1 _ [' '] _ (by simpa using hd3) rfl
  have hp4 : (stepN input (advSt input (stepN input (stepN input st k.length) 1)) 1).pos ≤
      input.length := by
    have hb := drop_len_bound hd hp
    have e0 : advSt input (stepN input (stepN input st k.length) 1) =
        stepN input st (k.length + 2) := by
      show stepN input (stepN input (stepN input st k.length) 1) 1 = _
      rw [stepN_add, stepN_add]
    rw [e0, stepN_add]
    have := (stepN_pos (k.length + 3) st (k ++ [' ', '=', ' ']) (fv ++ rest)
      (by simpa using hd) (by simp)).1
    rw [this]
    simp at hb
    omega
  have hval := parse_value_unquoted (f := f) hall hfv hd4
    (by intro c hc; exact hr c hc) hh hp4
  rw [hval, PRes.bind]
  congr 1
  have e0 : advSt input (stepN input (stepN input st k.length) 1) =
      stepN input st (k.length + 2) := by
    show stepN input (stepN input (stepN input st k.length) 1) 1 = _
    rw [stepN_add, stepN_add]
  rw [e0, stepN_add, stepN_add]
  congr 1
  omega

lemma swcGo_eq (input : Str) : ∀ (x : Str) (f : Nat) (st : CSt) (rest : Str),
    (∀ c ∈ x, c = '\n') → input.drop st.pos = x ++ rest →
    (∀ c, rest.head? = some c →
      ¬(c = ' ' ∨ c = '\t' ∨ c = '\n' ∨ c = '\r' ∨ c = '#')) →
    x.length < f →
    swcGo input f st = stepN input st x.length := by
  intro x
  induction x with
  | nil =>
    intro f st rest _ hd hr hf
    simp only [List.nil_append] at hd
    cases f with
    | zero => simp at hf
    | succ f =>
      rw [swcGo]
      have hws : skip_whitespace input st = stepN input st ([] : Str).length :=
        skip_whitespace_eq (by intro c hc; cases hc) (by simpa using hd)
          (by intro c hc; have := hr c hc; tauto)
      rw [hws]
      show (match peekAt input st with
        | some '#' => swcGo input f (commentGo input (charFuel input) st)
        | some '\n' => swcGo input f (advSt input st)
        | some '\r' => swcGo input f (advSt input st)
        | _ => st) = stepN input st ([] : Str).length
      cases hrest : rest with
      | nil =>
        rw [hrest] at hd
        rw [peekAt_none_of_drop hd]
        rfl
      | cons c t =>
        rw [hrest] at hd hr
        rw [peekAt_of_drop hd]
        have hc := hr c rfl
        split
        · rename_i heq
          cases heq
          exact absurd (by tauto) hc
        · rename_i heq
          cases heq
          exact absurd (by tauto) hc
        · rename_i heq
          cases heq
          exact absurd (by tauto) hc
        · rfl
  | cons c xs ih =>
    intro f st rest hx hd hr hf
    have hc := hx c (by simp)
    subst hc
    rw [List.cons_append] at hd
    cases f with
    | zero => simp at hf
    | succ f =>
      rw [swcGo]
      have hws : skip_whitespace input st = stepN input st ([] : Str).length :=
        skip_whitespace_eq (by intro c hc; cases hc) (by simpa using hd)
          (by intro c hc; cases hc; simp)
      rw [hws]
      show (match peekAt input st with
        | some '#' => swcGo input f (commentGo input (charFuel input) st)
        | some '\n' => swcGo input f (advSt input st)
        | some '\r' => swcGo input f (advSt input st)
        | _ => st) = stepN input st ('\n' :: xs).length
      rw [peekAt_of_drop hd]
      show swcGo input f (advSt input st) = stepN input st ('\n' :: xs).length
      have hd' : input.drop (advSt input st).pos = xs ++ rest := advSt_drop hd
      rw [ih f (advSt input st) rest (fun c' hc' => hx c' (by simp [hc'])) hd' hr
        (by simpa using hf)]
      rfl

lemma swc_eq {input : Str} {st : CSt} {x rest : Str}
    (hx : ∀ c ∈ x, c = '\n') (hd : input.drop st.pos = x ++ rest)
    (hr : ∀ c, rest.head? = some c →
      ¬(c = ' ' ∨ c = '\t' ∨ c = '\n' ∨ c = '\r' ∨ c = '#')) :
    skip_whitespace_and_comments input st = stepN input st x.length := by
  have hlen : x.length < charFuel input := by
    have := congrArg List.length hd
    rw [List.length_drop, List.length_append] at this
    rw [charFuel]
    omega
  exact swcGo_eq input x (charFuel input) st rest hx hd hr hlen

lemma is_at_end_false {input : Str} {st : CSt} {c : Char} {r : Str}
    (hall : input.all isAsciiChar = true)
    (hd : input.drop st.pos = c :: r) : is_at_end input st = false := by
  rw [is_at_end, ascii_utf8Len hall]
  have := pos_lt_length_of_drop hd
  simp
  omega

lemma is_at_end_true {input : Str} {st : CSt}
    (hall : input.all isAsciiChar = true)
    (hd : input.drop st.pos = []) : is_at_end input st = true := by
  rw [is_at_end, ascii_utf8Len hall]
  have := congrArg List.length hd
  rw [List.length_drop] at this
  simp only [List.length_nil] at this
  simp only [ge_iff_le, decide_eq_true_eq]
  omega

lemma keyChar_not_skip {c : Char} (h : keyChar c = true) :
    ¬(c = ' ' ∨ c = '\t' ∨ c = '\n' ∨ c = '\r' ∨ c = '#') := by
  intro hc
  rcases hc with rfl | rfl | rfl | rfl | rfl <;> revert h <;> decide

lemma keyChar_not_lbracket {c : Char} (h : keyChar c = true) : c ≠ '[' := by
  intro he
  rw [he] at h
  exact absurd h (by decide)

lemma loop_end {input : Str} {st : CSt} {root : List (Str × Value)}
    {cur : Option Str} {nl : Str} (f : Nat)
    (hall : input.all isAsciiChar = true)
    (hnl : ∀ c ∈ nl, c = '\n') (hd : input.drop st.pos = nl) :
    parseLoopGo input (f + 1) st root cur = .ok (.Table root) := by
  cases nl with
  | nil =>
    rw [parseLoopGo, if_pos (by rw [is_at_end_true hall hd])]
  | cons c t =>
    rw [parseLoopGo, if_neg (by rw [is_at_end_false hall hd]; simp)]
    have hswc : skip_whitespace_and_comments input st = stepN input st (c :: t).length :=
      @swc_eq input st (c :: t) [] hnl (by simpa using hd) (by intro c' hc'; cases hc')
    rw [hswc]
    have hd2 : input.drop (stepN input st (c :: t).length).pos = [] :=
      stepN_state (c :: t).length st (c :: t) [] (by simpa using hd) rfl
    rw [if_pos (by rw [is_at_end_true hall hd2])]

lemma loop_step_scalar {input : Str} {st : CSt} {root : List (Str × Value)}
    {cur : Option Str} {nl k fv rest : Str} (f : Nat)
    (hall : input.all isAsciiChar = true) (hp : st.pos ≤ input.length)
    (hnl : ∀ c ∈ nl, c = '\n')
    (hk1 : k ≠ []) (hk2 : ∀ c ∈ k, keyChar c = true)
    (hfv : ∀ c ∈ fv, ¬(c = '\n' ∨ c = '\r' ∨ c = '#'))
    (hh : ∀ c, (fv ++ rest).head? = some c →
      ¬(c = ' ' ∨ c = '\t') ∧ c ≠ dquoteChar ∧ c ≠ squoteChar ∧ c ≠ '[')
    (hr : ∀ c, rest.head? = some c → (c = '\n' ∨ c = '\r' ∨ c = '#'))
    (hd : input.drop st.pos = nl ++ (k ++ ' ' :: '=' :: ' ' :: (fv ++ rest))) :
    parseLoopGo input (f + 1) st root cur =
      parseLoopGo input f
        (stepN input st (nl.length + (k.length + 3 + fv.length)))
        (match cur with
         | some sect => confSectionInsert root sect k (conf_type_unquoted (rust_trim fv))
         | none => tinsert root k (conf_type_unquoted (rust_trim fv))) cur := by
  obtain ⟨c0, k', rfl⟩ : ∃ c0 k', k = c0 :: k' := by
    cases k with
    | nil => exact absurd rfl hk1
    | cons a b => exact ⟨a, b, rfl⟩
  have hc0 : keyChar c0 = true := hk2 c0 (by simp)
  have hd0 : input.drop st.pos = nl ++ c0 :: (k' ++ ' ' :: '=' :: ' ' :: (fv ++ rest)) := by
    simpa using hd
  have hne : input.drop st.pos ≠ [] := by
    rw [hd0]
    cases nl <;> simp
  obtain ⟨ch, r0, hch⟩ : ∃ ch r0, input.drop st.pos = ch :: r0 := by
    cases hx : input.drop st.pos with
    | nil => exact absurd hx hne
    | cons a b => exact ⟨a, b, rfl⟩
  rw [parseLoopGo, if_neg (by rw [is_at_end_false hall hch]; simp)]
  have hswc : skip_whitespace_and_comments input st = stepN input st nl.length :=
    swc_eq hnl hd0 (by
      intro c' hc'
      simp only [List.head?_cons, Option.some.injEq] at hc'
      subst hc'
      exact keyChar_not_skip hc0)
  rw [hswc]
  have hd1 : input.drop (stepN input st nl.length).pos =
      c0 :: (k' ++ ' ' :: '=' :: ' ' :: (fv ++ rest)) :=
    stepN_state nl.length st nl _ hd0 rfl
  rw [if_neg (by rw [is_at_end_false hall hd1]; simp)]
  rw [peekAt_of_drop hd1]
  have hp1 : (stepN input st nl.length).pos ≤ input.length := by
    have := pos_lt_length_of_drop hd1
    omega
  have hkv := @parse_key_value_eq input (stepN input st nl.length) (c0 :: k') fv rest
    input.length hall hp1 (by simp) hk2 hfv hh hr (by simpa using hd1)
  have hcf : charFuel input = input.length + 1 := rfl
  split
  · rename_i heq
    rw [Option.some.injEq] at heq
    exact absurd heq (keyChar_not_lbracket hc0)
  · rw [hcf, hkv]
    rw [stepN_add]

lemma loop_step_header {input : Str} {st : CSt} {root : List (Str × Value)}
    {cur : Option Str} {nl name rest : Str} (f : Nat)
    (hall : input.all isAsciiChar = true)
    (hnl : ∀ c ∈ nl, c = '\n')
    (hn : ∀ c ∈ name, ¬(c = ']' ∨ c = '\n')) (htrim : rust_trim name = name)
    (hd : input.drop st.pos = nl ++ ('[' :: (name ++ ']' :: rest))) :
    parseLoopGo input (f + 1) st root cur =
      parseLoopGo input f (stepN input st (nl.length + (name.length + 2)))
        root (some name) := by
  have hne : input.drop st.pos ≠ [] := by
    rw [hd]
    cases nl <;> simp
  obtain ⟨ch, r0, hch⟩ : ∃ ch r0, input.drop st.pos = ch :: r0 := by
    cases hx : input.drop st.pos with
    | nil => exact absurd hx hne
    | cons a b => exact ⟨a, b, rfl⟩
  rw [parseLoopGo, if_neg (by rw [is_at_end_false hall hch]; simp)]
  have hswc : skip_whitespace_and_comments input st = stepN input st nl.length :=
    swc_eq hnl hd (by
      intro c' hc'
      simp only [List.head?_cons, Option.some.injEq] at hc'
      subst hc'
      decide)
  rw [hswc]
  have hd1 : input.drop (stepN input st nl.length).pos =
      '[' :: (name ++ ']' :: rest) :=
    stepN_state nl.length st nl _ hd rfl
  rw [if_neg (by rw [is_at_end_false hall hd1]; simp)]
  rw [peekAt_of_drop hd1]
  have hsec := parse_section_header_eq hall hn htrim hd1
  show (match parse_section_header input (stepN input st nl.length) with
    | .ok name st2 => parseLoopGo input f st2 root (some name)
    | .err e => .err e
    | .panicked => .panicked
    | .outOfFuel => .outOfFuel) = _
  rw [hsec]
  rw [stepN_add]

/-- One item of a line-oriented CONF document: its leading newline run and
either a scalar line core `k = fv` or a section header core `[name]`. -/
inductive DocItem where
  | scalar (nl : Str) (k : Str) (fv : Str)
  | header (nl : Str) (name : Str)

/-- The text of one item. -/
def docItemText : DocItem → Str
  | .scalar nl k fv => nl ++ (k ++ ' ' :: '=' :: ' ' :: fv)
  | .header nl name => nl ++ ('[' :: (name ++ [']']))

/-- The text of a document. -/
def docText : List DocItem → Str
  | [] => []
  | it :: its => docItemText it ++ docText its

/-- The root-table/section effect of one item, mirroring the main parse
loop's insertion logic. -/
def docStep (root : List (Str × Value)) (cur : Option Str) :
    DocItem → List (Str × Value) × Option Str
  | .scalar _ k fv =>
    (match cur with
     | some sect => confSectionInsert root sect k (conf_type_unquoted (rust_trim fv))
     | none => tinsert root k (conf_type_unquoted (rust_trim fv)), cur)
  | .header _ name => (root, some name)

/-- Folding a document's effects over the loop state. -/
def docFold : List (Str × Value) → Option Str → List DocItem → List (Str × Value)
  | root, _, [] => root
  | root, cur, it :: its => docFold (docStep root cur it).1 (docStep root cur it).2 its

/-- The newline run that follows the current position: the next item's
leading run, or the document's final run. -/
def headNl : List DocItem → Str → Str
  | [], finalNl => finalNl
  | .scalar nl _ _ :: _, _ => nl
  | .header nl _ :: _, _ => nl

/-- Well-formedness of a document's items: newline runs are newlines, keys
are nonempty key-character runs, scalar values avoid the line terminators
and do not start like a quoted/array value, section names avoid `']'` and
newlines and are trim-stable, and each scalar line is terminated by a
newline (or ends the document). -/
def itemsOK : List DocItem → Str → Prop
  | [], finalNl => ∀ c ∈ finalNl, c = '\n'
  | it :: its, finalNl =>
    (match it with
     | .scalar nl k fv =>
       (∀ c ∈ nl, c = '\n') ∧ k ≠ [] ∧ (∀ c ∈ k, keyChar c = true) ∧
       (∀ c ∈ fv, ¬(c = '\n' ∨ c = '\r' ∨ c = '#')) ∧
       (∀ c, fv.head? = some c →
         ¬(c = ' ' ∨ c = '\t') ∧ c ≠ dquoteChar ∧ c ≠ squoteChar ∧ c ≠ '[') ∧
       (headNl its finalNl ≠ [] ∨ (its = [] ∧ finalNl = []))
     | .header nl name =>
       (∀ c ∈ nl, c = '\n') ∧ (∀ c ∈ name, ¬(c = ']' ∨ c = '\n')) ∧
       rust_trim name = name) ∧
    itemsOK its finalNl

lemma docText_head_nl (its : List DocItem) (finalNl : Str)
    (hok : itemsOK its finalNl) (hfn : ∀ c ∈ finalNl, c = '\n')
    (hne : headNl its finalNl ≠ [] ∨ (its = [] ∧ finalNl = [])) :
    ∀ c, (docText its ++ finalNl).head? = some c → c = '\n' := by
  intro c hc
  cases its with
  | nil =>
    simp only [docText, List.nil_append] at hc
    cases finalNl with
    | nil => cases hc
    | cons a t =>
      simp only [List.head?_cons, Option.some.injEq] at hc
      subst hc
      exact hfn a (by simp)
  | cons it its' =>
    cases it with
    | scalar nl k fv =>
      simp only [headNl] at hne
      have hnl : nl ≠ [] := by
        rcases hne with h | h
        · exact h
        · cases h.1
      obtain ⟨a, t, rfl⟩ : ∃ a t, nl = a :: t := by
        cases nl with
        | nil => exact absurd rfl hnl
        | cons a t => exact ⟨a, t, rfl⟩
      simp only [docText, docItemText, List.cons_append, List.append_assoc,
        List.head?_cons, Option.some.injEq] at hc
      subst hc
      obtain ⟨hit, _⟩ := hok
      exact hit.1 a (by simp)
    | header nl name =>
      simp only [headNl] at hne
      have hnl : nl ≠ [] := by
        rcases hne with h | h
        · exact h
        · cases h.1
      obtain ⟨a, t, rfl⟩ : ∃ a t, nl = a :: t := by
        cases nl with
        | nil => exact absurd rfl hnl
        | cons a t => exact ⟨a, t, rfl⟩
      simp only [docText, docItemText, List.cons_append, List.append_assoc,
        List.head?_cons, Option.some.injEq] at hc
      subst hc
      obtain ⟨hit, _⟩ := hok
      exact hit.1 a (by simp)

lemma itemsOK_finalNl : ∀ (its : List DocItem) (finalNl : Str),
    itemsOK its finalNl → ∀ c ∈ finalNl, c = '\n' := by
  intro its
  induction its with
  | nil => intro finalNl h; exact h
  | cons it its' ih => intro finalNl h; exact ih finalNl h.2

lemma parse_doc {input : Str} (hall : input.all isAsciiChar = true) :
    ∀ (items : List DocItem) (f : Nat) (st : CSt) (root : List (Str × Value))
      (cur : Option Str) (finalNl : Str),
    input.drop st.pos = docText items ++ finalNl →
    st.pos ≤ input.length →
    itemsOK items finalNl →
    parseLoopGo input (f + items.length + 1) st root cur =
      .ok (.Table (docFold root cur items)) := by
  intro items
  induction items with
  | nil =>
    intro f st root cur finalNl hd hp hok
    simp only [docText, List.nil_append] at hd
    simpa [docFold] using loop_end (f + ([] : List DocItem).length) hall hok hd
  | cons it its ih =>
    intro f st root cur finalNl hd hp hok
    obtain ⟨hit, hok'⟩ := hok
    cases it with
    | scalar nl k fv =>
      obtain ⟨hnl, hk1, hk2, hfv, hfh, hterm⟩ := hit
      have hd' : input.drop st.pos =
          nl ++ (k ++ ' ' :: '=' :: ' ' :: (fv ++ (docText its ++ finalNl))) := by
        simpa [docText, docItemText, List.append_assoc] using hd
      have hrn : ∀ c, (docText its ++ finalNl).head? = some c → c = '\n' :=
        docText_head_nl its finalNl hok' (itemsOK_finalNl its finalNl hok') hterm
      have hr : ∀ c, (docText its ++ finalNl).head? = some c →
          (c = '\n' ∨ c = '\r' ∨ c = '#') := fun c hc => Or.inl (hrn c hc)
      have hh : ∀ c, (fv ++ (docText its ++ finalNl)).head? = some c →
          ¬(c = ' ' ∨ c = '\t') ∧ c ≠ dquoteChar ∧ c ≠ squoteChar ∧ c ≠ '[' := by
        intro c hc
        cases fv with
        | nil =>
          simp only [List.nil_append] at hc
          have := hrn c hc
          subst this
          exact ⟨by simp, by decide, by decide, by decide⟩
        | cons a t =>
          simp only [List.cons_append, List.head?_cons, Option.some.injEq] at hc
          subst hc
          exact hfh _ rfl
      have hstep := @loop_step_scalar input st root cur nl k fv
        (docText its ++ finalNl) (f + its.length + 1) hall hp hnl hk1 hk2 hfv hh hr hd'
      rw [show (DocItem.scalar nl k fv :: its).length = its.length + 1 from rfl]
      rw [show f + (its.length + 1) + 1 = (f + its.length + 1) + 1 from by omega]
      rw [hstep]
      have hd2 : input.drop st.pos =
          (nl ++ (k ++ ' ' :: '=' :: ' ' :: fv)) ++ (docText its ++ finalNl) := by
        simpa [List.append_assoc] using hd'
      have hlenx : (nl ++ (k ++ ' ' :: '=' :: ' ' :: fv)).length =
          nl.length + (k.length + 3 + fv.length) := by
        simp [List.length_append]
        try omega
      have hpos' := (stepN_pos (nl.length + (k.length + 3 + fv.length)) st _ _ hd2 hlenx).1
      have hd3 := stepN_state (nl.length + (k.length + 3 + fv.length)) st _ _ hd2 hlenx
      have hple : (stepN input st (nl.length + (k.length + 3 + fv.length))).pos ≤
          input.length := by
        have hb := drop_len_bound hd2 hp
        rw [hlenx] at hb
        rw [hpos']
        omega
      rw [ih f _ _ cur finalNl hd3 hple hok']
      simp only [docFold, docStep]
    | header nl name =>
      obtain ⟨hnl, hn, htrim⟩ := hit
      have hd' : input.drop st.pos =
          nl ++ ('[' :: (name ++ ']' :: (docText its ++ finalNl))) := by
        simpa [docText, docItemText, List.append_assoc] using hd
      have hstep := @loop_step_header input st root cur nl name
        (docText its ++ finalNl) (f + its.length + 1) hall hnl hn htrim hd'
      rw [show (DocItem.header nl name :: its).length = its.length + 1 from rfl]
      rw [show f + (its.length + 1) + 1 = (f + its.length + 1) + 1 from by omega]
      rw [hstep]
      have hd2 : input.drop st.pos =
          (nl ++ ('[' :: (name ++ [']']))) ++ (docText its ++ finalNl) := by
        simpa [List.append_assoc] using hd'
      have hlenx : (nl ++ ('[' :: (name ++ [']']))).length =
          nl.length + (name.length + 2) := by
        simp [List.length_append]
        try omega
      have hpos' := (stepN_pos (nl.length + (name.length + 2)) st _ _ hd2 hlenx).1
      have hd3 := stepN_state (nl.length + (name.length + 2)) st _ _ hd2 hlenx
      have hple : (stepN input st (nl.length + (name.length + 2))).pos ≤
          input.length := by
        have hb := drop_len_bound hd2 hp
        rw [hlenx] at hb
        rw [hpos']
        omega
      rw [ih f _ root (some name) finalNl hd3 hple hok']
      simp only [docFold, docStep]

lemma docText_length : ∀ items : List DocItem, items.length ≤ (docText items).length := by
  intro items
  induction items with
  | nil => simp [docText]
  | cons it its ih =>
    rw [docText, List.length_append, List.length_cons]
    have h1 : 1 ≤ (docItemText it).length := by
      cases it with
      | scalar nl k fv =>
        simp [docItemText]
        omega
      | header nl name =>
        simp [docItemText]
        omega
    omega

lemma conf_parse_doc {input : Str} (hall : input.all isAsciiChar = true)
    (items : List DocItem) (finalNl : Str)
    (htext : input = docText items ++ finalNl)
    (hok : itemsOK items finalNl) :
    conf_parse input = .ok (.Table (docFold [] none items)) := by
  have hge : items.length ≤ input.length := by
    have := docText_length items
    rw [htext, List.length_append]
    omega
  rw [conf_parse]
  rw [show charFuel input = (input.length - items.length) + items.length + 1 from by
    rw [charFuel]; omega]
  exact parse_doc hall items (input.length - items.length) ⟨0, 1, 1⟩ [] none finalNl
    (by simpa using htext) (Nat.zero_le _) hok

lemma conf_type_unquoted_split {raw : Str}
    (h5 : raw ≠ [])
    (h6 : asciiLower raw ∉ ["true".data, "yes".data, "on".data, "false".data,
      "no".data, "off".data, "null".data, "nil".data])
    (h7 : (raw.contains ' ' || raw.contains ',') = true)
    (h8 : 1 < ((((splitAnyChar [' ', ','] raw).map rust_trim).filter
      (fun s => !(s == [])))).length) :
    conf_type_unquoted raw = Value.Array (((((splitAnyChar [' ', ','] raw).map
      rust_trim).filter (fun s => !(s == [])))).map parse_simple_value) := by
  have hlne : asciiLower raw ≠ [] := by
    intro hx
    apply h5
    cases raw with
    | nil => rfl
    | cons c r => simp [asciiLower] at hx
  simp only [List.mem_cons, not_or] at h6
  obtain ⟨n1, n2, n3, n4, n5, n6, n7, n8, _⟩ := h6
  rw [conf_type_unquoted, if_neg h5]
  rw [if_neg (by tauto), if_neg (by tauto), if_neg (by tauto)]
  rw [h7]
  simp only [if_true]
  rw [if_pos (by simpa using h8)]

/-- C8 counterexample: the unquoted value `x,` contains a comma, yet the
parse yields the string `"x,"`, not an array — the split produces a single
nonempty piece and the code then falls back to typing the whole text. -/
theorem C8_counterexample :
    conf_parse "a = x,".data = .ok (.Table [("a".data, Value.String "x,".data)]) ∧
    Value.String "x,".data ≠ Value.Array [Value.String "x".data] :=
  ⟨rfl, by simp⟩

/-- C8 (amended): an unquoted CONF value containing a space or comma is
split on spaces/commas with empty pieces dropped; when more than one piece
remains, the value is the `Array` of the pieces each typed by
`parse_simple_value` (integer/float/string — no boolean/null re-reading);
with at most one piece the whole text is typed as a single simple value. -/
theorem C8_space_comma_split (k raw : Str)
    (hk1 : k ≠ []) (hk2 : ∀ c ∈ k, keyChar c = true)
    (h2 : ∀ c ∈ raw, ¬(c = '\n' ∨ c = '\r' ∨ c = '#'))
    (h3 : ∀ c ∈ raw.take 1,
      ¬(c = ' ' ∨ c = '\t') ∧ c ≠ dquoteChar ∧ c ≠ squoteChar ∧ c ≠ '[')
    (h4 : rust_trim raw = raw) (h5 : raw ≠ [])
    (h6 : asciiLower raw ∉ ["true".data, "yes".data, "on".data, "false".data,
      "no".data, "off".data, "null".data, "nil".data])
    (h7 : (raw.contains ' ' || raw.contains ',') = true)
    (h8 : 1 < ((((splitAnyChar [' ', ','] raw).map rust_trim).filter
      (fun s => !(s == [])))).length)
    (hall : (k ++ ' ' :: '=' :: ' ' :: raw).all isAsciiChar = true) :
    conf_parse (k ++ ' ' :: '=' :: ' ' :: raw) =
      .ok (.Table [(k, Value.Array (((((splitAnyChar [' ', ','] raw).map
        rust_trim).filter (fun s => !(s == [])))).map parse_simple_value))]) := by
  have hmain := conf_parse_doc hall [DocItem.scalar [] k raw] []
    (by simp [docText, docItemText])
    (by
      refine ⟨⟨?_, hk1, hk2, h2, ?_, Or.inr ⟨rfl, rfl⟩⟩, ?_⟩
      · intro c hc
        cases hc
      · intro c hc
        refine h3 c ?_
        cases raw with
        | nil => cases hc
        | cons a t =>
          simp only [List.head?_cons, Option.some.injEq] at hc
          subst hc
          simp
      · intro c hc
        cases hc)
  rw [hmain]
  simp only [docFold, docStep]
  rw [h4, conf_type_unquoted_split h5 h6 h7 h8]
  rfl

/-- C8 witness: the spec's scenario — `servers = alpha beta gamma` parses
to an array of the three strings. -/
theorem C8_space_comma_split_witness :
    conf_parse "servers = alpha beta gamma".data =
      .ok (.Table [("servers".data,
        Value.Array [Value.String "alpha".data, Value.String "beta".data,
          Value.String "gamma".data])]) := by
  rw [show ("servers = alpha beta gamma".data : Str) =
    "servers".data ++ ' ' :: '=' :: ' ' :: "alpha beta gamma".data from rfl]
  rw [C8_space_comma_split "servers".data "alpha beta gamma".data
    (by simp) (by decide) (by decide) (by decide) rfl (by simp) (by decide) rfl
    (by decide) rfl]
  rfl

lemma digitsVal_append_digit (a : Str) (c : Char) :
    digitsVal (a ++ [c]) = 10 * digitsVal a + (c.toNat - '0'.toNat) := by
  rw [digitsVal, digitsVal, List.foldl_append]
  rfl

/-- Character shape of rendered integers: a minus sign or a digit image. -/
def numChar (c : Char) : Prop :=
  c = '-' ∨ ∃ m, m < 10 ∧ c = Nat.digitChar m

lemma numChar_props {c : Char} (h : numChar c) :
    ¬(c = '\n' ∨ c = '\r' ∨ c = '#') ∧ ¬(c = ' ' ∨ c = '\t') ∧
    c ≠ dquoteChar ∧ c ≠ squoteChar ∧ c ≠ '[' ∧ c.isWhitespace = false ∧
    c ≠ ' ' ∧ c ≠ ',' ∧ asciiLowerChar c = c ∧ isAsciiChar c = true ∧
    c ≠ ']' := by
  rcases h with rfl | ⟨m, hm, rfl⟩
  · refine ⟨by decide, by decide, by decide, by decide, by decide, by decide,
      by decide, by decide, by decide, by decide, by decide⟩
  · revert hm
    revert m
    decide

lemma digitChar_sub_val : ∀ m, m < 10 → (Nat.digitChar m).toNat - '0'.toNat = m := by
  decide

lemma digitChar_ne_plus : ∀ m, m < 10 → Nat.digitChar m ≠ '+' := by
  decide

lemma digitChar_ne_minus : ∀ m, m < 10 → Nat.digitChar m ≠ '-' := by
  decide

lemma natDigitsGo_spec : ∀ (f n : Nat), n < f →
    natDigitsGo f n ≠ [] ∧ (∀ c ∈ natDigitsGo f n, ∃ m, m < 10 ∧ c = Nat.digitChar m) ∧
    digitsVal (natDigitsGo f n) = n := by
  intro f
  induction f with
  | zero => intro n hn; omega
  | succ f ih =>
    intro n hn
    rw [natDigitsGo]
    by_cases h10 : n < 10
    · rw [if_pos h10]
      refine ⟨by simp, ?_, ?_⟩
      · intro c hc
        simp only [List.mem_singleton] at hc
        exact ⟨n, h10, hc⟩
      · rw [show ([Nat.digitChar n] : Str) = [] ++ [Nat.digitChar n] from rfl,
          digitsVal_append_digit, digitChar_sub_val n h10]
        have h0 : digitsVal ([] : Str) = 0 := rfl
        omega
    · rw [if_neg h10]
      have hdiv : n / 10 < f := by omega
      obtain ⟨h1, h2, h3⟩ := ih (n / 10) hdiv
      refine ⟨by simp [h1], ?_, ?_⟩
      · intro c hc
        rcases List.mem_append.mp hc with hc' | hc'
        · exact h2 c hc'
        · simp only [List.mem_singleton] at hc'
          exact ⟨n % 10, by omega, hc'⟩
      · rw [digitsVal_append_digit, h3, digitChar_sub_val (n % 10) (Nat.mod_lt _ (by omega))]
        omega

lemma nat_to_string_spec (n : Nat) :
    nat_to_string n ≠ [] ∧
    (∀ c ∈ nat_to_string n, ∃ m, m < 10 ∧ c = Nat.digitChar m) ∧
    digitsVal (nat_to_string n) = n :=
  natDigitsGo_spec (n + 1) n (by omega)

lemma int_to_string_chars {i : Int} : ∀ c ∈ int_to_string i, numChar c := by
  intro c hc
  rw [int_to_string] at hc
  by_cases hneg : i < 0
  · rw [if_pos hneg] at hc
    rcases List.mem_cons.mp hc with he | hc'
    · exact Or.inl he
    · exact Or.inr ((nat_to_string_spec _).2.1 c hc')
  · rw [if_neg hneg] at hc
    exact Or.inr ((nat_to_string_spec _).2.1 c hc)

lemma digitChar_isDigit : ∀ m, m < 10 → (Nat.digitChar m).isDigit = true := by
  decide

lemma digit_isDigit {c : Char} (h : ∃ m, m < 10 ∧ c = Nat.digitChar m) :
    c.isDigit = true := by
  obtain ⟨m, hm, he⟩ := h
  rw [he]
  exact digitChar_isDigit m hm

lemma parse_i64_cons {c : Char} {t : Str} (h1 : c ≠ '+') (h2 : c ≠ '-') :
    parse_i64 (c :: t) = parseI64Core false (c :: t) := by
  rw [parse_i64.eq_def]
  split
  · rename_i heq
    rw [List.cons.injEq] at heq
    exact absurd heq.1 h1
  · rename_i heq
    rw [List.cons.injEq] at heq
    exact absurd heq.1 h2
  · rfl

lemma parse_i64_neg {t : Str} : parse_i64 ('-' :: t) = parseI64Core true t := by
  rfl

lemma parseI64Core_digits {ds : Str} (hne : ds ≠ [])
    (hdig : ∀ c ∈ ds, ∃ m, m < 10 ∧ c = Nat.digitChar m) {neg : Bool} {v : Int}
    (hv : (if neg then -(digitsVal ds : Int) else (digitsVal ds : Int)) = v)
    (hr : i64Min ≤ v ∧ v ≤ i64Max) :
    parseI64Core neg ds = some v := by
  rw [parseI64Core, if_neg]
  · show (if i64Min ≤ (if neg then -(digitsVal ds : Int) else (digitsVal ds : Int)) ∧
        (if neg then -(digitsVal ds : Int) else (digitsVal ds : Int)) ≤ i64Max then
        some (if neg then -(digitsVal ds : Int) else (digitsVal ds : Int)) else none) = some v
    rw [hv, if_pos hr]
  · intro hx
    rcases hx with hx | hx
    · exact hne hx
    · exact hx (by
        rw [List.all_eq_true]
        intro c hc
        exact digit_isDigit (hdig c hc))

lemma parse_i64_int_to_string {i : Int} (h1 : i64Min ≤ i) (h2 : i ≤ i64Max) :
    parse_i64 (int_to_string i) = some i := by
  rw [int_to_string]
  by_cases hneg : i < 0
  · rw [if_pos hneg, parse_i64_neg]
    obtain ⟨hne, hdig, hval⟩ := nat_to_string_spec i.natAbs
    refine parseI64Core_digits hne hdig ?_ ⟨h1, h2⟩
    rw [if_pos rfl, hval]
    omega
  · rw [if_neg hneg]
    obtain ⟨hne, hdig, hval⟩ := nat_to_string_spec i.toNat
    obtain ⟨c0, t0, hds⟩ : ∃ c0 t0, nat_to_string i.toNat = c0 :: t0 := by
      cases hx : nat_to_string i.toNat with
      | nil => exact absurd hx hne
      | cons a b => exact ⟨a, b, rfl⟩
    have hc0 : ∃ m, m < 10 ∧ c0 = Nat.digitChar m := hdig c0 (by rw [hds]; simp)
    obtain ⟨m, hm, he⟩ := hc0
    have hc0p : c0 ≠ '+' := by rw [he]; exact digitChar_ne_plus m hm
    have hc0m : c0 ≠ '-' := by rw [he]; exact digitChar_ne_minus m hm
    rw [hds, parse_i64_cons hc0p hc0m, ← hds]
    refine parseI64Core_digits hne hdig ?_ ⟨h1, h2⟩
    show ((digitsVal (nat_to_string i.toNat) : Nat) : Int) = i
    rw [hval]
    omega

lemma contains_eq_false_of_ne {ds : Str} {x : Char} (h : ∀ c ∈ ds, c ≠ x) :
    ds.contains x = false := by
  induction ds with
  | nil => rfl
  | cons a t ih =>
    have ha : (x == a) = false := by
      rw [beq_eq_false_iff_ne]
      exact Ne.symm (h a (List.mem_cons_self a t))
    rw [List.contains_cons, ha, Bool.false_or]
    exact ih (fun c hc => h c (List.mem_cons_of_mem a hc))

lemma dropWhile_ws_eq_self {s : Str} (h : ∀ c ∈ s, c.isWhitespace = false) :
    s.dropWhile Char.isWhitespace = s := by
  cases s with
  | nil => rfl
  | cons a t =>
    rw [List.dropWhile_cons, h a (List.mem_cons_self a t)]
    simp

lemma rust_trim_eq_self {s : Str} (h : ∀ c ∈ s, c.isWhitespace = false) :
    rust_trim s = s := by
  rw [rust_trim, dropWhile_ws_eq_self h,
    dropWhile_ws_eq_self (fun c hc => h c (List.mem_reverse.mp hc)),
    List.reverse_reverse]

lemma asciiLower_eq_self {s : Str} (h : ∀ c ∈ s, asciiLowerChar c = c) :
    asciiLower s = s := by
  induction s with
  | nil => rfl
  | cons a t ih =>
    rw [asciiLower, List.map_cons, h a (List.mem_cons_self a t)]
    rw [asciiLower] at ih
    rw [ih (fun c hc => h c (List.mem_cons_of_mem a hc))]

lemma cons_ne_of_head_ne {c d : Char} {t r : Str} (h : c ≠ d) : c :: t ≠ d :: r := by
  intro he
  rw [List.cons.injEq] at he
  exact h he.1

lemma numChar_ne_keywords {c : Char} (h : numChar c) (t : Str) :
    asciiLowerChar c :: t ∉ ["true".data, "yes".data, "on".data, "false".data,
      "no".data, "off".data, "null".data, "nil".data] := by
  have hc : c ≠ 't' ∧ c ≠ 'y' ∧ c ≠ 'o' ∧ c ≠ 'f' ∧ c ≠ 'n' := by
    rcases h with rfl | ⟨m, hm, rfl⟩
    · exact ⟨by decide, by decide, by decide, by decide, by decide⟩
    · revert hm
      revert m
      decide
  have hl : asciiLowerChar c = c := (numChar_props h).2.2.2.2.2.2.2.2.1
  rw [hl]
  simp only [List.mem_cons, List.not_mem_nil, or_false, not_or]
  exact ⟨cons_ne_of_head_ne hc.1, cons_ne_of_head_ne hc.2.1,
    cons_ne_of_head_ne hc.2.2.1, cons_ne_of_head_ne hc.2.2.2.1,
    cons_ne_of_head_ne hc.2.2.2.2, cons_ne_of_head_ne hc.2.2.1,
    cons_ne_of_head_ne hc.2.2.2.2, cons_ne_of_head_ne hc.2.2.2.2⟩

lemma conf_type_unquoted_simple {raw : Str}
    (h5 : raw ≠ [])
    (h6 : asciiLower raw ∉ ["true".data, "yes".data, "on".data, "false".data,
      "no".data, "off".data, "null".data, "nil".data])
    (h7 : raw.contains ' ' = false) (h7c : raw.contains ',' = false) :
    conf_type_unquoted raw = parse_simple_value raw := by
  have hlne : asciiLower raw ≠ [] := by
    intro hx
    apply h5
    cases raw with
    | nil => rfl
    | cons c r => simp [asciiLower] at hx
  simp only [List.mem_cons, not_or] at h6
  obtain ⟨n1, n2, n3, n4, n5, n6, n7, n8, _⟩ := h6
  rw [conf_type_unquoted, if_neg h5]
  rw [if_neg (by tauto), if_neg (by tauto), if_neg (by tauto)]
  rw [h7, h7c]
  rfl

lemma int_to_string_cons (i : Int) :
    ∃ c0 t0, int_to_string i = c0 :: t0 := by
  rw [int_to_string]
  by_cases hneg : i < 0
  · rw [if_pos hneg]
    exact ⟨_, _, rfl⟩
  · rw [if_neg hneg]
    cases hx : nat_to_string i.toNat with
    | nil => exact absurd hx (nat_to_string_spec i.toNat).1
    | cons a b => exact ⟨a, b, rfl⟩

lemma conf_type_unquoted_int {i : Int} (h1 : i64Min ≤ i) (h2 : i ≤ i64Max) :
    conf_type_unquoted (int_to_string i) = Value.Integer i := by
  have hchars := @int_to_string_chars i
  obtain ⟨c0, t0, hds⟩ := int_to_string_cons i
  have hne : int_to_string i ≠ [] := by rw [hds]; simp
  have hlow : asciiLower (int_to_string i) = int_to_string i :=
    asciiLower_eq_self (fun c hc => (numChar_props (hchars c hc)).2.2.2.2.2.2.2.2.1)
  have hkw : asciiLower (int_to_string i) ∉ ["true".data, "yes".data, "on".data,
      "false".data, "no".data, "off".data, "null".data, "nil".data] := by
    rw [hlow, hds]
    have hc0 : numChar c0 := hchars c0 (by rw [hds]; simp)
    have := numChar_ne_keywords hc0 t0
    rwa [(numChar_props hc0).2.2.2.2.2.2.2.2.1] at this
  have hsp : (int_to_string i).contains ' ' = false :=
    contains_eq_false_of_ne (fun c hc => (numChar_props (hchars c hc)).2.2.2.2.2.2.1)
  have hcm : (int_to_string i).contains ',' = false :=
    contains_eq_false_of_ne (fun c hc => (numChar_props (hchars c hc)).2.2.2.2.2.2.2.1)
  rw [conf_type_unquoted_simple hne hkw hsp hcm, parse_simple_value,
    parse_i64_int_to_string h1 h2]

lemma trim_int_to_string (i : Int) : rust_trim (int_to_string i) = int_to_string i :=
  rust_trim_eq_self (fun c hc => (numChar_props (int_to_string_chars c hc)).2.2.2.2.2.1)

lemma keyLt_total : ∀ {a b : Str}, keyLt a b = false → keyLt b a = false → a = b := by
  intro a
  induction a with
  | nil =>
    intro b h1 h2
    cases b with
    | nil => rfl
    | cons c t => simp [keyLt] at h1
  | cons c s ih =>
    intro b h1 h2
    cases b with
    | nil => simp [keyLt] at h2
    | cons d t =>
      simp only [keyLt] at h1 h2
      by_cases hcd : c < d
      · rw [if_pos hcd] at h1
        cases h1
      · by_cases hdc : d < c
        · rw [if_pos hdc] at h2
          cases h2
        · rw [if_neg hcd, if_neg hdc] at h1
          rw [if_neg hdc, if_neg hcd] at h2
          have hceq : c = d := le_antisymm (not_lt.mp hdc) (not_lt.mp hcd)
          rw [hceq, ih h1 h2]

lemma tget_tinsert_self (L : List (Str × Value)) (k : Str) (v : Value) :
    tget (tinsert L k v) k = some v := by
  induction L with
  | nil => simp [tinsert, tget]
  | cons p t ih =>
    obtain ⟨k', v'⟩ := p
    rw [tinsert]
    by_cases h1 : keyLt k k' = true
    · rw [if_pos h1, tget, if_pos rfl]
    · rw [if_neg h1]
      by_cases h2 : keyLt k' k = true
      · rw [if_pos h2, tget, if_neg (fun he => keyLt_ne h2 he.symm)]
        exact ih
      · rw [if_neg h2, tget, if_pos rfl]

lemma tinsert_tinsert_self (L : List (Str × Value)) (k : Str) (v w : Value) :
    tinsert (tinsert L k v) k w = tinsert L k w := by
  induction L with
  | nil =>
    simp only [tinsert, keyLt_irrefl]
    rfl
  | cons p t ih =>
    obtain ⟨k', v'⟩ := p
    rw [tinsert]
    by_cases h1 : keyLt k k' = true
    · rw [if_pos h1, tinsert, keyLt_irrefl]
      simp only [Bool.false_eq_true, if_false, tinsert, if_pos h1]
    · rw [if_neg h1]
      by_cases h2 : keyLt k' k = true
      · rw [if_pos h2, tinsert, if_neg h1, if_pos h2, ih, tinsert, if_neg h1, if_pos h2]
      · rw [if_neg h2, tinsert, keyLt_irrefl]
        simp only [Bool.false_eq_true, if_false, tinsert, if_neg h1, if_neg h2]

lemma tget_tinsert_ne {n k : Str} (hne : n ≠ k) (L : List (Str × Value)) (v : Value) :
    tget (tinsert L k v) n = tget L n := by
  induction L with
  | nil => simp [tinsert, tget, if_neg hne]
  | cons p t ih =>
    obtain ⟨k', v'⟩ := p
    rw [tinsert]
    by_cases h1 : keyLt k k' = true
    · rw [if_pos h1, tget, if_neg hne]
    · rw [if_neg h1]
      by_cases h2 : keyLt k' k = true
      · rw [if_pos h2, tget, tget]
        by_cases h3 : n = k'
        · rw [if_pos h3, if_pos h3]
        · rw [if_neg h3, if_neg h3, ih]
      · have hkk' : k = k' := keyLt_total (Bool.eq_false_iff.mpr h1) (Bool.eq_false_iff.mpr h2)
        subst hkk'
        rw [if_neg h2, tget, tget, if_neg hne, if_neg hne]

lemma char_val_le {a b : UInt32} (h : a ≤ b) : a.toNat ≤ b.toNat := h

lemma alphanum_lt_128 {c : Char} (h : c.isAlphanum = true) : c.toNat < 128 := by
  rw [Char.isAlphanum, Bool.or_eq_true, Char.isAlpha, Bool.or_eq_true] at h
  rcases h with (h | h) | h
  · rw [Char.isUpper, Bool.and_eq_true, decide_eq_true_eq, decide_eq_true_eq] at h
    have h2 : c.val.toNat ≤ (90 : UInt32).toNat := char_val_le h.2
    have h3 : (90 : UInt32).toNat = 90 := rfl
    have h4 : c.toNat = c.val.toNat := rfl
    omega
  · rw [Char.isLower, Bool.and_eq_true, decide_eq_true_eq, decide_eq_true_eq] at h
    have h2 : c.val.toNat ≤ (122 : UInt32).toNat := char_val_le h.2
    have h3 : (122 : UInt32).toNat = 122 := rfl
    have h4 : c.toNat = c.val.toNat := rfl
    omega
  · rw [Char.isDigit, Bool.and_eq_true, decide_eq_true_eq, decide_eq_true_eq] at h
    have h2 : c.val.toNat ≤ (57 : UInt32).toNat := char_val_le h.2
    have h3 : (57 : UInt32).toNat = 57 := rfl
    have h4 : c.toNat = c.val.toNat := rfl
    omega

lemma keyChar_ascii {c : Char} (h : keyChar c = true) : isAsciiChar c = true := by
  rw [keyChar, Bool.or_eq_true, Bool.or_eq_true, Bool.or_eq_true] at h
  rcases h with ((h | h) | h) | h
  · rw [isAsciiChar, decide_eq_true_eq]
    exact alphanum_lt_128 h
  · rw [decide_eq_true_eq] at h
    rw [h]
    decide
  · rw [decide_eq_true_eq] at h
    rw [h]
    decide
  · rw [decide_eq_true_eq] at h
    rw [h]
    decide

lemma keyChar_ne_of_not {c d : Char} (h : keyChar c = true) (hd : keyChar d = false) :
    c ≠ d := by
  intro he
  rw [he, hd] at h
  cases h

lemma keyChar_not_ws {c : Char} (h : keyChar c = true) : c.isWhitespace = false := by
  rw [Char.isWhitespace]
  have h1 : c ≠ ' ' := keyChar_ne_of_not h (by decide)
  have h2 : c ≠ '\t' := keyChar_ne_of_not h (by decide)
  have h3 : c ≠ '\r' := keyChar_ne_of_not h (by decide)
  have h4 : c ≠ '\n' := keyChar_ne_of_not h (by decide)
  simp [h1, h2, h3, h4]

/-- Leaves the round-trip theorem covers: `Null`, booleans, and integers in
`i64` range. -/
def leafOKb : Value → Bool
  | .Null => true
  | .Bool _ => true
  | .Integer i => decide (i64Min ≤ i ∧ i ≤ i64Max)
  | _ => false

/-- The text `format_conf_value` produces for a covered leaf. -/
def leafText : Value → Str
  | .Null => "null".data
  | .Bool true => "true".data
  | .Bool false => "false".data
  | .Integer i => int_to_string i
  | _ => []

/-- Keys the round-trip theorem covers: nonempty runs of key characters. -/
def keyOKb (k : Str) : Bool := !(k == []) && k.all keyChar

/-- A row of a depth-two sub-table: covered key, covered leaf. -/
def rowOKb : Str × Value → Bool
  | (k, v) => keyOKb k && leafOKb v

/-- A root entry: either a covered leaf or a nonempty sorted sub-table of
covered rows. -/
def entryOKb : Str × Value → Bool
  | (k, .Table nt) => keyOKb k && !nt.isEmpty && sortedKeys (nt.map (·.1)) && nt.all rowOKb
  | (k, v) => keyOKb k && leafOKb v

/-- The non-table rows of a table, in order. -/
def leafRows (t : List (Str × Value)) : List (Str × Value) :=
  t.filter (fun p => !(is_table p.2))

/-- The sub-table entries of a table, in order. -/
def sectTables (t : List (Str × Value)) : List (Str × List (Str × Value)) :=
  t.filterMap (fun p => match p.2 with | .Table nt => some (p.1, nt) | _ => none)

/-- The `key = value` lines of a row list. -/
def linesText : List (Str × Value) → Str
  | [] => []
  | (k, v) :: rest => k ++ " = ".data ++ leafText v ++ '\n' :: linesText rest

/-- The `[section]` blocks of a section list. -/
def sectionsText : List (Str × List (Str × Value)) → Str
  | [] => []
  | (name, nt) :: rest =>
    '\n' :: '[' :: (name ++ "]\n".data) ++ linesText nt ++ sectionsText rest

lemma leafOKb_not_table {v : Value} (h : leafOKb v = true) : is_table v = false := by
  cases v <;> first | rfl | cases h

lemma entryOKb_leaf {k : Str} {v : Value} (h : entryOKb (k, v) = true)
    (ht : is_table v = false) : keyOKb k = true ∧ leafOKb v = true := by
  cases v <;> simp only [entryOKb, Bool.and_eq_true] at h <;>
    first | exact ⟨h.1, h.2⟩ | cases ht

lemma entryOKb_table {k : Str} {nt : List (Str × Value)}
    (h : entryOKb (k, .Table nt) = true) :
    keyOKb k = true ∧ nt ≠ [] ∧ sortedKeys (nt.map (·.1)) = true ∧
      nt.all rowOKb = true := by
  simp only [entryOKb, Bool.and_eq_true] at h
  refine ⟨h.1.1.1, ?_, h.1.2, h.2⟩
  have := h.1.1.2
  simpa using this

lemma format_conf_value_leaf {v : Value} (h : leafOKb v = true) :
    format_conf_value v = .ok (leafText v) := by
  cases v with
  | Null => rfl
  | Bool b => cases b <;> rfl
  | Integer i => rfl
  | _ => cases h

lemma leaf_roundtrip {v : Value} (h : leafOKb v = true) :
    conf_type_unquoted (rust_trim (leafText v)) = v := by
  cases v with
  | Null => rfl
  | Bool b => cases b <;> rfl
  | Integer i =>
    have hb : i64Min ≤ i ∧ i ≤ i64Max := by
      rw [leafOKb, decide_eq_true_eq] at h
      exact h
    show conf_type_unquoted (rust_trim (int_to_string i)) = Value.Integer i
    rw [trim_int_to_string, conf_type_unquoted_int hb.1 hb.2]
  | _ => cases h

lemma writeScalarLines_eq : ∀ {t : List (Str × Value)}, t.all entryOKb = true →
    writeScalarLines t = .ok (linesText (leafRows t)) := by
  intro t
  induction t with
  | nil => intro h; rfl
  | cons p rest ih =>
    intro h
    rw [List.all_cons, Bool.and_eq_true] at h
    obtain ⟨k, v⟩ := p
    rw [writeScalarLines]
    by_cases ht : is_table v = true
    · rw [if_pos ht, ih h.2]
      rw [show leafRows ((k, v) :: rest) = leafRows rest from by
        rw [leafRows, leafRows, List.filter_cons]
        simp [ht]]
    · have ht' : is_table v = false := Bool.eq_false_iff.mpr ht
      obtain ⟨hk, hv⟩ := entryOKb_leaf h.1 ht'
      rw [if_neg ht, format_conf_value_leaf hv, ih h.2]
      rw [show leafRows ((k, v) :: rest) = (k, v) :: leafRows rest from by
        rw [leafRows, leafRows, List.filter_cons]
        simp [ht']]
      rw [linesText]
      simp

lemma rowOKb_all_leaf {nt : List (Str × Value)} (h : nt.all rowOKb = true) :
    nt.all entryOKb = true := by
  rw [List.all_eq_true] at h ⊢
  intro p hp
  obtain ⟨k, v⟩ := p
  have hr := h (k, v) hp
  have hr2 := hr
  rw [rowOKb, Bool.and_eq_true] at hr2
  have hnt : is_table v = false := leafOKb_not_table hr2.2
  cases v <;> first | exact hr | cases hnt

lemma leafRows_all {nt : List (Str × Value)} (h : nt.all rowOKb = true) :
    leafRows nt = nt := by
  rw [leafRows, List.filter_eq_self]
  intro p hp
  rw [List.all_eq_true] at h
  have := h p hp
  obtain ⟨k, v⟩ := p
  rw [rowOKb, Bool.and_eq_true] at this
  rw [leafOKb_not_table this.2]
  rfl

lemma writeSections_rows : ∀ {nt : List (Str × Value)}, nt.all rowOKb = true →
    ∀ pref, writeSections nt pref = .ok [] := by
  intro nt
  induction nt with
  | nil => intro h pref; rfl
  | cons p rest ih =>
    intro h pref
    rw [List.all_cons, Bool.and_eq_true] at h
    obtain ⟨k, v⟩ := p
    have hrow := h.1
    rw [rowOKb, Bool.and_eq_true] at hrow
    rw [writeSections]
    have hwe : writeSectionEntry k v pref = .ok [] := by
      cases v <;> first | rfl | cases hrow.2
    rw [hwe, ih h.2 pref]
    rfl


lemma writeSections_eq : ∀ {t : List (Str × Value)}, t.all entryOKb = true →
    writeSections t [] = .ok (sectionsText (sectTables t)) := by
  intro t
  induction t with
  | nil => intro h; rfl
  | cons p rest ih =>
    intro h
    rw [List.all_cons, Bool.and_eq_true] at h
    obtain ⟨k, v⟩ := p
    rw [writeSections]
    cases v with
    | Table nt =>
      obtain ⟨hk, hne, hsk, hrows⟩ := entryOKb_table h.1
      have hsl : writeScalarLines nt = .ok (linesText nt) := by
        rw [writeScalarLines_eq (rowOKb_all_leaf hrows), leafRows_all hrows]
      have hws : writeSections nt k = .ok [] := writeSections_rows hrows k
      have hwe : writeSectionEntry k (.Table nt) [] =
          .ok ('\n' :: '[' :: (k ++ "]\n".data) ++ linesText nt) := by
        simp only [writeSectionEntry, hsl, hws]
        simp [hws]
      rw [hwe, ih h.2]
      show Except.ok (('\n' :: '[' :: (k ++ "]\n".data) ++ linesText nt) ++
        sectionsText (sectTables rest)) = _
      rw [show sectTables ((k, Value.Table nt) :: rest)
          = (k, nt) :: sectTables rest from rfl]
      rw [sectionsText]
    | Null =>
      rw [show writeSectionEntry k Value.Null [] = .ok [] from rfl, ih h.2]
      rfl
    | Bool b =>
      rw [show writeSectionEntry k (Value.Bool b) [] = .ok [] from rfl, ih h.2]
      rfl
    | Integer i =>
      rw [show writeSectionEntry k (Value.Integer i) [] = .ok [] from rfl, ih h.2]
      rfl
    | Float f =>
      rw [show writeSectionEntry k (Value.Float f) [] = .ok [] from rfl, ih h.2]
      rfl
    | String s =>
      rw [show writeSectionEntry k (Value.String s) [] = .ok [] from rfl, ih h.2]
      rfl
    | Array a =>
      rw [show writeSectionEntry k (Value.Array a) [] = .ok [] from rfl, ih h.2]
      rfl

lemma serialize_c2 {t : List (Str × Value)} (h : t.all entryOKb = true) :
    serializeTextOf (.Table t) = linesText (leafRows t) ++ sectionsText (sectTables t) := by
  rw [serializeTextOf, serialize_as_conf, write_conf_table,
    writeScalarLines_eq h, writeSections_eq h]

/-- The document items of a run of scalar lines; the first line of the
whole document has no leading newline. -/
def scalarItems : Bool → List (Str × Value) → List DocItem
  | _, [] => []
  | first, (k, v) :: rest =>
    DocItem.scalar (if first then [] else ['\n']) k (leafText v) :: scalarItems false rest

/-- The document items of the section blocks; a header absorbs the
preceding line's newline plus its own leading blank line. -/
def sectionItems : Bool → List (Str × List (Str × Value)) → List DocItem
  | _, [] => []
  | first, (name, nt) :: rest =>
    DocItem.header (if first then ['\n'] else ['\n', '\n']) name ::
      (scalarItems false nt ++ sectionItems false rest)

/-- The serialized form of a covered root table, as document items. -/
def docOf (t : List (Str × Value)) : List DocItem :=
  scalarItems true (leafRows t) ++ sectionItems (leafRows t).isEmpty (sectTables t)

lemma docText_append : ∀ xs ys : List DocItem,
    docText (xs ++ ys) = docText xs ++ docText ys := by
  intro xs ys
  induction xs with
  | nil => rfl
  | cons it rest ih =>
    rw [List.cons_append, docText, docText, ih, List.append_assoc]

lemma space_eq_space : (" = ".data : Str) = ' ' :: '=' :: ' ' :: [] := rfl

lemma scalarItems_false_text : ∀ L : List (Str × Value),
    docText (scalarItems false L) ++ ['\n'] = '\n' :: linesText L := by
  intro L
  induction L with
  | nil => rfl
  | cons p rest ih =>
    obtain ⟨k, v⟩ := p
    rw [scalarItems, docText, docItemText, linesText, space_eq_space]
    simp only [List.append_assoc, List.cons_append, List.nil_append,
      Bool.false_eq_true, if_false]
    rw [ih]

lemma scalarItems_true_text : ∀ L : List (Str × Value), L ≠ [] →
    docText (scalarItems true L) ++ ['\n'] = linesText L := by
  intro L hL
  cases L with
  | nil => exact absurd rfl hL
  | cons p rest =>
    obtain ⟨k, v⟩ := p
    rw [scalarItems, docText, docItemText, linesText, space_eq_space]
    simp only [List.append_assoc, List.cons_append, List.nil_append, if_true]
    rw [scalarItems_false_text]

lemma sectionItems_false_text : ∀ C : List (Str × List (Str × Value)),
    docText (sectionItems false C) ++ ['\n'] = '\n' :: sectionsText C := by
  intro C
  induction C with
  | nil => rfl
  | cons p rest ih =>
    obtain ⟨name, nt⟩ := p
    rw [sectionItems, docText, docItemText, sectionsText, docText_append]
    simp only [List.append_assoc, List.cons_append, List.nil_append,
      Bool.false_eq_true, if_false]
    rw [ih]
    rw [show (('\n' :: sectionsText rest) : Str) = ['\n'] ++ sectionsText rest from rfl,
      ← List.append_assoc, scalarItems_false_text]
    simp only [List.append_assoc, List.cons_append, List.nil_append]

lemma sectionItems_true_text : ∀ C : List (Str × List (Str × Value)), C ≠ [] →
    docText (sectionItems true C) ++ ['\n'] = sectionsText C := by
  intro C hC
  cases C with
  | nil => exact absurd rfl hC
  | cons p rest =>
    obtain ⟨name, nt⟩ := p
    rw [sectionItems, docText, docItemText, sectionsText, docText_append]
    simp only [List.append_assoc, List.cons_append, List.nil_append, if_true]
    rw [sectionItems_false_text]
    rw [show (('\n' :: sectionsText rest) : Str) = ['\n'] ++ sectionsText rest from rfl,
      ← List.append_assoc, scalarItems_false_text]
    simp only [List.append_assoc, List.cons_append, List.nil_append]

lemma leafRows_sectTables_ne {t : List (Str × Value)} (ht : t ≠ [])
    (hs : leafRows t = []) : sectTables t ≠ [] := by
  cases t with
  | nil => exact absurd rfl ht
  | cons p rest =>
    obtain ⟨k, v⟩ := p
    cases hv : is_table v
    · exfalso
      rw [leafRows, List.filter_cons] at hs
      simp [hv] at hs
    · cases v with
      | Table nt =>
        show (k, nt) :: sectTables rest ≠ []
        exact List.cons_ne_nil _ _
      | Null => cases hv
      | Bool b => cases hv
      | Integer i => cases hv
      | Float f => cases hv
      | String s => cases hv
      | Array a => cases hv

lemma docOf_text {t : List (Str × Value)} (ht : t ≠ []) :
    docText (docOf t) ++ ['\n'] = linesText (leafRows t) ++ sectionsText (sectTables t) := by
  rw [docOf, docText_append, List.append_assoc]
  cases hs : (leafRows t).isEmpty
  · have hs' : leafRows t ≠ [] := by
      intro hx
      rw [hx] at hs
      exact absurd hs (by decide)
    cases hc : sectTables t with
    | nil =>
      rw [show sectionItems false ([] : List (Str × List (Str × Value))) = [] from rfl]
      rw [show docText ([] : List DocItem) = ([] : Str) from rfl, List.nil_append,
        scalarItems_true_text _ hs', sectionsText, List.append_nil]
    | cons c crest =>
      rw [sectionItems_false_text]
      rw [show (('\n' :: sectionsText (c :: crest)) : Str)
        = ['\n'] ++ sectionsText (c :: crest) from rfl, ← List.append_assoc,
        scalarItems_true_text _ hs']
  · have hs' : leafRows t = [] := by
      cases hx : leafRows t with
      | nil => rfl
      | cons a b =>
        rw [hx] at hs
        exact absurd hs Bool.false_ne_true
    rw [hs']
    rw [show scalarItems true ([] : List (Str × Value)) = [] from rfl]
    rw [show docText ([] : List DocItem) = ([] : Str) from rfl, List.nil_append,
      sectionItems_true_text _ (leafRows_sectTables_ne ht hs'), linesText,
      List.nil_append]

/-- The leading newline run of an item. -/
def docNl : DocItem → Str
  | .scalar nl _ _ => nl
  | .header nl _ => nl

/-- The per-item conditions of `itemsOK` (everything except the lookahead
at the following newline run). -/
def itemGood : DocItem → Prop
  | .scalar nl k fv =>
    (∀ c ∈ nl, c = '\n') ∧ k ≠ [] ∧ (∀ c ∈ k, keyChar c = true) ∧
    (∀ c ∈ fv, ¬(c = '\n' ∨ c = '\r' ∨ c = '#')) ∧
    (∀ c, fv.head? = some c →
      ¬(c = ' ' ∨ c = '\t') ∧ c ≠ dquoteChar ∧ c ≠ squoteChar ∧ c ≠ '[')
  | .header nl name =>
    (∀ c ∈ nl, c = '\n') ∧ (∀ c ∈ name, ¬(c = ']' ∨ c = '\n')) ∧
    rust_trim name = name

lemma headNl_ne {its : List DocItem} {fn : Str}
    (h : ∀ x ∈ its, docNl x ≠ []) (hfn : fn ≠ []) : headNl its fn ≠ [] := by
  cases its with
  | nil => exact hfn
  | cons x rest =>
    cases x with
    | scalar nl k fv => exact h (.scalar nl k fv) (by simp)
    | header nl name => exact h (.header nl name) (by simp)

lemma itemsOK_build : ∀ its : List DocItem,
    (∀ x ∈ its, itemGood x ∧ docNl x ≠ []) → itemsOK its ['\n'] := by
  intro its
  induction its with
  | nil =>
    intro h c hc
    simp only [List.mem_singleton] at hc
    exact hc
  | cons it rest ih =>
    intro h
    have hit := (h it (by simp)).1
    have hrest : ∀ x ∈ rest, itemGood x ∧ docNl x ≠ [] :=
      fun x hx => h x (List.mem_cons_of_mem _ hx)
    cases it with
    | scalar nl k fv =>
      obtain ⟨g1, g2, g3, g4, g5⟩ := hit
      exact ⟨⟨g1, g2, g3, g4, g5,
        Or.inl (headNl_ne (fun x hx => (hrest x hx).2) (by simp))⟩, ih hrest⟩
    | header nl name =>
      obtain ⟨g1, g2, g3⟩ := hit
      exact ⟨⟨g1, g2, g3⟩, ih hrest⟩

lemma itemsOK_cons_build {it : DocItem} {rest : List DocItem}
    (hit : itemGood it) (hrest : ∀ x ∈ rest, itemGood x ∧ docNl x ≠ []) :
    itemsOK (it :: rest) ['\n'] := by
  cases it with
  | scalar nl k fv =>
    obtain ⟨g1, g2, g3, g4, g5⟩ := hit
    exact ⟨⟨g1, g2, g3, g4, g5,
      Or.inl (headNl_ne (fun x hx => (hrest x hx).2) (by simp))⟩,
      itemsOK_build rest hrest⟩
  | header nl name =>
    obtain ⟨g1, g2, g3⟩ := hit
    exact ⟨⟨g1, g2, g3⟩, itemsOK_build rest hrest⟩

lemma head_mem {c : Char} : ∀ {s : Str}, s.head? = some c → c ∈ s := by
  intro s h
  cases s with
  | nil => cases h
  | cons a r =>
    rw [List.head?_cons, Option.some.injEq] at h
    rw [← h]
    exact List.mem_cons_self a r

lemma leafText_line_ok {v : Value} (h : leafOKb v = true) :
    (∀ c ∈ leafText v, ¬(c = '\n' ∨ c = '\r' ∨ c = '#')) ∧
    (∀ c, (leafText v).head? = some c →
      ¬(c = ' ' ∨ c = '\t') ∧ c ≠ dquoteChar ∧ c ≠ squoteChar ∧ c ≠ '[') := by
  cases v with
  | Null => exact ⟨by decide, by decide⟩
  | Bool b => cases b <;> exact ⟨by decide, by decide⟩
  | Integer i =>
    constructor
    · intro c hc
      exact (numChar_props (int_to_string_chars c hc)).1
    · intro c hc
      have hm : numChar c := int_to_string_chars c (head_mem hc)
      have hp := numChar_props hm
      exact ⟨hp.2.1, hp.2.2.1, hp.2.2.2.1, hp.2.2.2.2.1⟩
  | _ => cases h

lemma keyOKb_parts {k : Str} (h : keyOKb k = true) :
    k ≠ [] ∧ ∀ c ∈ k, keyChar c = true := by
  rw [keyOKb, Bool.and_eq_true, Bool.not_eq_true', beq_eq_false_iff_ne,
    List.all_eq_true] at h
  exact h

lemma row_itemGood {k : Str} {v : Value} (hk : keyOKb k = true)
    (hv : leafOKb v = true) {nl : Str} (hnl : ∀ c ∈ nl, c = '\n') :
    itemGood (.scalar nl k (leafText v)) := by
  obtain ⟨hk1, hk2⟩ := keyOKb_parts hk
  obtain ⟨hf1, hf2⟩ := leafText_line_ok hv
  exact ⟨hnl, hk1, hk2, hf1, hf2⟩

lemma name_itemGood {name : Str} (hk : keyOKb name = true) {nl : Str}
    (hnl : ∀ c ∈ nl, c = '\n') : itemGood (.header nl name) := by
  obtain ⟨_, hk2⟩ := keyOKb_parts hk
  refine ⟨hnl, ?_, rust_trim_eq_self (fun c hc => keyChar_not_ws (hk2 c hc))⟩
  intro c hc
  have h := hk2 c hc
  have h1 : c ≠ ']' := keyChar_ne_of_not h (by decide)
  have h2 : c ≠ '\n' := keyChar_ne_of_not h (by decide)
  intro hx
  rcases hx with hx | hx
  · exact h1 hx
  · exact h2 hx

lemma scalarItems_false_good : ∀ {L : List (Str × Value)},
    (∀ p ∈ L, rowOKb p = true) →
    ∀ it ∈ scalarItems false L, itemGood it ∧ docNl it ≠ [] := by
  intro L
  induction L with
  | nil => intro h it hit; cases hit
  | cons p rest ih =>
    intro h it hit
    obtain ⟨k, v⟩ := p
    rw [scalarItems] at hit
    have hrow := h (k, v) (by simp)
    rw [rowOKb, Bool.and_eq_true] at hrow
    rcases List.mem_cons.mp hit with he | hit'
    · rw [he]
      refine ⟨row_itemGood hrow.1 hrow.2 ?_, by simp [docNl]⟩
      intro c hc
      simp only [Bool.false_eq_true, if_false, List.mem_singleton] at hc
      exact hc
    · exact ih (fun q hq => h q (List.mem_cons_of_mem _ hq)) it hit'

lemma sectionItems_good : ∀ {C : List (Str × List (Str × Value))} {b : Bool},
    (∀ s ∈ C, keyOKb s.1 = true ∧ ∀ p ∈ s.2, rowOKb p = true) →
    ∀ it ∈ sectionItems b C, itemGood it ∧ docNl it ≠ [] := by
  intro C
  induction C with
  | nil => intro b h it hit; cases hit
  | cons s rest ih =>
    intro b h it hit
    obtain ⟨name, nt⟩ := s
    rw [sectionItems] at hit
    have hs := h (name, nt) (by simp)
    rcases List.mem_cons.mp hit with he | hit'
    · rw [he]
      cases b
      · exact ⟨name_itemGood hs.1 (by decide), by simp [docNl]⟩
      · exact ⟨name_itemGood hs.1 (by decide), by simp [docNl]⟩
    · rcases List.mem_append.mp hit' with hx | hx
      · exact scalarItems_false_good hs.2 it hx
      · exact ih (fun q hq => h q (List.mem_cons_of_mem _ hq)) it hx

lemma leafRows_ok {t : List (Str × Value)} (h : t.all entryOKb = true) :
    ∀ p ∈ leafRows t, rowOKb p = true := by
  intro p hp
  rw [leafRows, List.mem_filter] at hp
  obtain ⟨k, v⟩ := p
  have ht : is_table v = false := by
    have := hp.2
    rw [Bool.not_eq_true'] at this
    exact this
  rw [List.all_eq_true] at h
  obtain ⟨h1, h2⟩ := entryOKb_leaf (h _ hp.1) ht
  rw [rowOKb, Bool.and_eq_true]
  exact ⟨h1, h2⟩

lemma sectTables_ok {t : List (Str × Value)} (h : t.all entryOKb = true) :
    ∀ s ∈ sectTables t, keyOKb s.1 = true ∧ s.2 ≠ [] ∧
      sortedKeys (s.2.map (·.1)) = true ∧ ∀ p ∈ s.2, rowOKb p = true := by
  intro s hs
  rw [sectTables, List.mem_filterMap] at hs
  obtain ⟨⟨k, v⟩, hmem, hf⟩ := hs
  cases v with
  | Table nt =>
    simp only [Option.some.injEq] at hf
    rw [List.all_eq_true] at h
    obtain ⟨h1, h2, h3, h4⟩ := entryOKb_table (h _ hmem)
    rw [← hf]
    rw [List.all_eq_true] at h4
    exact ⟨h1, h2, h3, h4⟩
  | Null => cases hf
  | Bool b => cases hf
  | Integer i => cases hf
  | Float f => cases hf
  | String s => cases hf
  | Array a => cases hf

lemma docOf_itemsOK {t : List (Str × Value)} (h : t.all entryOKb = true) :
    itemsOK (docOf t) ['\n'] := by
  rw [docOf]
  have hsect : ∀ (b : Bool), ∀ it ∈ sectionItems b (sectTables t),
      itemGood it ∧ docNl it ≠ [] :=
    fun b => sectionItems_good (fun s hs =>
      ⟨(sectTables_ok h s hs).1, (sectTables_ok h s hs).2.2.2⟩)
  cases hL : leafRows t with
  | nil =>
    rw [show scalarItems true ([] : List (Str × Value)) = [] from rfl, List.nil_append]
    exact itemsOK_build _ (hsect _)
  | cons p rest =>
    obtain ⟨k, v⟩ := p
    have hrows := leafRows_ok h
    rw [hL] at hrows
    have hrow := hrows (k, v) (by simp)
    rw [rowOKb, Bool.and_eq_true] at hrow
    rw [scalarItems, List.cons_append]
    refine itemsOK_cons_build ?_ ?_
    · refine row_itemGood hrow.1 hrow.2 ?_
      intro c hc
      simp only [if_true] at hc
      cases hc
    · intro x hx
      rcases List.mem_append.mp hx with hx' | hx'
      · exact scalarItems_false_good
          (fun q hq => hrows q (List.mem_cons_of_mem _ hq)) x hx'
      · exact hsect _ x hx'

/-- `docFold` with the section state made explicit. -/
def docFoldSt : List (Str × Value) × Option Str → List DocItem →
    List (Str × Value) × Option Str
  | s, [] => s
  | (root, cur), it :: its => docFoldSt (docStep root cur it) its

lemma docFold_eq_st : ∀ (its : List DocItem) (root : List (Str × Value))
    (cur : Option Str), docFold root cur its = (docFoldSt (root, cur) its).1 := by
  intro its
  induction its with
  | nil => intro root cur; rfl
  | cons it rest ih =>
    intro root cur
    rw [docFold, docFoldSt]
    cases hds : docStep root cur it with
    | mk r c => exact ih r c

lemma docFoldSt_append : ∀ (xs ys : List DocItem) (s : List (Str × Value) × Option Str),
    docFoldSt s (xs ++ ys) = docFoldSt (docFoldSt s xs) ys := by
  intro xs
  induction xs with
  | nil => intro ys s; rfl
  | cons it rest ih =>
    intro ys s
    obtain ⟨root, cur⟩ := s
    rw [List.cons_append, docFoldSt, docFoldSt, ih]

lemma foldScalars : ∀ (L pre : List (Str × Value)) (first : Bool),
    (∀ p ∈ L, leafOKb p.2 = true) →
    (∀ p ∈ pre, ∀ q ∈ L, keyLt p.1 q.1 = true) →
    sortedKeys (L.map (·.1)) = true →
    docFoldSt (pre, none) (scalarItems first L) = (pre ++ L, none) := by
  intro L
  induction L with
  | nil =>
    intro pre first _ _ _
    rw [scalarItems, docFoldSt, List.append_nil]
  | cons p rest ih =>
    intro pre first hleaf hlt hsort
    obtain ⟨k, v⟩ := p
    rw [scalarItems, docFoldSt, docStep]
    rw [leaf_roundtrip (hleaf (k, v) (by simp))]
    rw [tinsert_append_of_all_lt (fun q hq => hlt q hq (k, v) (by simp))]
    have hsort' : sortedKeys (rest.map (·.1)) = true := by
      rw [List.map_cons] at hsort
      exact sortedKeys_tail hsort
    have hhd : ∀ q ∈ rest, keyLt k q.1 = true := by
      intro q hq
      rw [List.map_cons] at hsort
      exact sortedKeys_head_lt hsort q.1 (List.mem_map_of_mem _ hq)
    rw [ih (pre ++ [(k, v)]) false
      (fun q hq => hleaf q (List.mem_cons_of_mem _ hq))
      (fun q hq r hr => by
        rcases List.mem_append.mp hq with hq' | hq'
        · exact hlt q hq' r (List.mem_cons_of_mem _ hr)
        · rcases List.mem_cons.mp hq' with he | he
          · rw [he]
            exact hhd r hr
          · cases he)
      hsort']
    rw [List.append_assoc, List.singleton_append]

lemma foldRows : ∀ (L root0 P : List (Str × Value)) (n : Str),
    (∀ p ∈ L, leafOKb p.2 = true) →
    (∀ p ∈ P, ∀ q ∈ L, keyLt p.1 q.1 = true) →
    sortedKeys (L.map (·.1)) = true →
    docFoldSt (tinsert root0 n (.Table P), some n) (scalarItems false L)
      = (tinsert root0 n (.Table (P ++ L)), some n) := by
  intro L
  induction L with
  | nil =>
    intro root0 P n _ _ _
    rw [scalarItems, docFoldSt, List.append_nil]
  | cons p rest ih =>
    intro root0 P n hleaf hlt hsort
    obtain ⟨k, v⟩ := p
    rw [scalarItems, docFoldSt, docStep]
    rw [leaf_roundtrip (hleaf (k, v) (by simp))]
    rw [confSectionInsert, tget_tinsert_self]
    show docFoldSt (tinsert (tinsert root0 n (Value.Table P)) n
        (Value.Table (tinsert P k v)), some n) (scalarItems false rest) = _
    rw [tinsert_tinsert_self]
    rw [tinsert_append_of_all_lt (fun q hq => hlt q hq (k, v) (by simp))]
    have hsort' : sortedKeys (rest.map (·.1)) = true := by
      rw [List.map_cons] at hsort
      exact sortedKeys_tail hsort
    have hhd : ∀ q ∈ rest, keyLt k q.1 = true := by
      intro q hq
      rw [List.map_cons] at hsort
      exact sortedKeys_head_lt hsort q.1 (List.mem_map_of_mem _ hq)
    rw [ih root0 (P ++ [(k, v)]) n
      (fun q hq => hleaf q (List.mem_cons_of_mem _ hq))
      (fun q hq r hr => by
        rcases List.mem_append.mp hq with hq' | hq'
        · exact hlt q hq' r (List.mem_cons_of_mem _ hr)
        · rcases List.mem_cons.mp hq' with he | he
          · rw [he]
            exact hhd r hr
          · cases he)
      hsort']
    rw [List.append_assoc, List.singleton_append]

/-- Inserting the section tables into the root, in order. -/
def insertAll : List (Str × Value) → List (Str × List (Str × Value)) →
    List (Str × Value)
  | root, [] => root
  | root, (n, nt) :: rest => insertAll (tinsert root n (.Table nt)) rest

lemma foldSections : ∀ (C : List (Str × List (Str × Value)))
    (root : List (Str × Value)) (cur : Option Str) (b : Bool),
    (∀ s ∈ C, tget root s.1 = none) →
    sortedKeys (C.map (·.1)) = true →
    (∀ s ∈ C, s.2 ≠ [] ∧ sortedKeys (s.2.map (·.1)) = true ∧
      ∀ p ∈ s.2, leafOKb p.2 = true) →
    (docFoldSt (root, cur) (sectionItems b C)).1 = insertAll root C := by
  intro C
  induction C with
  | nil => intro root cur b _ _ _; rfl
  | cons s rest ih =>
    intro root cur b hget hsort hrows
    obtain ⟨n, nt⟩ := s
    obtain ⟨hne, hntsort, hntleaf⟩ := hrows (n, nt) (by simp)
    rw [sectionItems, docFoldSt, docStep, docFoldSt_append]
    obtain ⟨⟨k1, v1⟩, nt', hnt⟩ : ∃ p nt', nt = p :: nt' := by
      cases nt with
      | nil => exact absurd rfl hne
      | cons a b => exact ⟨a, b, rfl⟩
    have hstep1 : docFoldSt (root, some n) (scalarItems false nt)
        = (tinsert root n (.Table nt), some n) := by
      rw [hnt, scalarItems, docFoldSt, docStep]
      rw [leaf_roundtrip (hntleaf (k1, v1) (by rw [hnt]; simp))]
      rw [confSectionInsert, hget (n, nt) (by simp)]
      show docFoldSt (tinsert root n (Value.Table [(k1, v1)]), some n)
          (scalarItems false nt')
        = (tinsert root n (Value.Table ((k1, v1) :: nt')), some n)
      rw [foldRows nt' root [(k1, v1)] n
        (fun q hq => hntleaf q (by rw [hnt]; exact List.mem_cons_of_mem _ hq))
        (fun q hq r hr => by
          rcases List.mem_cons.mp hq with he | he
          · rw [he]
            rw [hnt, List.map_cons] at hntsort
            exact sortedKeys_head_lt hntsort r.1 (List.mem_map_of_mem _ hr)
          · cases he)
        (by rw [hnt, List.map_cons] at hntsort; exact sortedKeys_tail hntsort)]
      rw [List.singleton_append]
    rw [hstep1]
    rw [insertAll]
    have hnames : ∀ q ∈ rest, keyLt n q.1 = true := by
      intro q hq
      rw [List.map_cons] at hsort
      exact sortedKeys_head_lt hsort q.1 (List.mem_map_of_mem _ hq)
    exact ih (tinsert root n (.Table nt)) (some n) false
      (fun q hq => by
        rw [tget_tinsert_ne (fun he => keyLt_ne (hnames q hq) he.symm)]
        exact hget q (List.mem_cons_of_mem _ hq))
      (by rw [List.map_cons] at hsort; exact sortedKeys_tail hsort)
      (fun q hq => hrows q (List.mem_cons_of_mem _ hq))

lemma sortedKeys_pairwise : ∀ {l : List Str}, sortedKeys l = true →
    l.Pairwise (fun a b => keyLt a b = true) := by
  intro l
  induction l with
  | nil => intro _; exact List.Pairwise.nil
  | cons a t ih =>
    intro h
    exact List.Pairwise.cons (sortedKeys_head_lt h) (ih (sortedKeys_tail h))

lemma pairwise_sortedKeys : ∀ {l : List Str},
    l.Pairwise (fun a b => keyLt a b = true) → sortedKeys l = true := by
  intro l
  induction l with
  | nil => intro _; rfl
  | cons a t ih =>
    intro h
    cases t with
    | nil => rfl
    | cons b r =>
      rw [sortedKeys, Bool.and_eq_true]
      rw [List.pairwise_cons] at h
      exact ⟨h.1 b (by simp), ih h.2⟩

lemma sortedKeys_nodup {l : List Str} (h : sortedKeys l = true) : l.Nodup :=
  (sortedKeys_pairwise h).imp (fun hab => keyLt_ne hab)

lemma leafRows_keys_sublist (t : List (Str × Value)) :
    ((leafRows t).map (·.1)).Sublist (t.map (·.1)) :=
  (List.filter_sublist t).map _

lemma sectTables_keys_sublist : ∀ t : List (Str × Value),
    ((sectTables t).map (·.1)).Sublist (t.map (·.1)) := by
  intro t
  induction t with
  | nil => exact List.Sublist.refl _
  | cons p rest ih =>
    obtain ⟨k, v⟩ := p
    cases v with
    | Table nt =>
      rw [show sectTables ((k, Value.Table nt) :: rest) = (k, nt) :: sectTables rest
        from rfl, List.map_cons, List.map_cons]
      exact List.Sublist.cons₂ _ ih
    | Null => exact List.Sublist.cons _ ih
    | Bool b => exact List.Sublist.cons _ ih
    | Integer i => exact List.Sublist.cons _ ih
    | Float f => exact List.Sublist.cons _ ih
    | String s => exact List.Sublist.cons _ ih
    | Array a => exact List.Sublist.cons _ ih

lemma sectTables_mem {t : List (Str × Value)} {s : Str × List (Str × Value)}
    (hs : s ∈ sectTables t) : (s.1, Value.Table s.2) ∈ t := by
  rw [sectTables, List.mem_filterMap] at hs
  obtain ⟨⟨k, v⟩, hmem, hf⟩ := hs
  cases v with
  | Table nt =>
    simp only [Option.some.injEq] at hf
    rw [← hf]
    exact hmem
  | Null => cases hf
  | Bool b => cases hf
  | Integer i => cases hf
  | Float f => cases hf
  | String str => cases hf
  | Array a => cases hf

lemma leafRows_tget_none {t : List (Str × Value)}
    (hsort : sortedKeys (t.map (·.1)) = true) {s : Str × List (Str × Value)}
    (hs : s ∈ sectTables t) : tget (leafRows t) s.1 = none := by
  apply tget_none_of_forall_ne
  intro p hp he
  rw [leafRows, List.mem_filter] at hp
  have hst : (s.1, Value.Table s.2) ∈ t := sectTables_mem hs
  have hpe : p = (s.1, Value.Table s.2) :=
    List.inj_on_of_nodup_map (sortedKeys_nodup hsort) hp.1 hst he
  rw [hpe] at hp
  have := hp.2
  rw [show is_table (s.1, Value.Table s.2).2 = true from rfl] at this
  cases this

lemma tinsert_cons_of_all_gt {L : List (Str × Value)} {k : Str} {v : Value}
    (h : ∀ p ∈ L, keyLt k p.1 = true) : tinsert L k v = (k, v) :: L := by
  cases L with
  | nil => rfl
  | cons p rest =>
    obtain ⟨k', v'⟩ := p
    rw [tinsert, if_pos (h (k', v') (by simp))]

lemma insertAll_cons_lt : ∀ (secs : List (Str × List (Str × Value)))
    (L : List (Str × Value)) (k : Str) (v : Value),
    (∀ s ∈ secs, keyLt k s.1 = true) →
    insertAll ((k, v) :: L) secs = (k, v) :: insertAll L secs := by
  intro secs
  induction secs with
  | nil => intro L k v _; rfl
  | cons s rest ih =>
    intro L k v h
    obtain ⟨n, nt⟩ := s
    rw [insertAll, insertAll]
    have hkn : keyLt k n = true := h (n, nt) (by simp)
    rw [tinsert, if_neg (by rw [keyLt_asymm hkn]; simp), if_pos hkn]
    exact ih _ _ _ (fun q hq => h q (List.mem_cons_of_mem _ hq))

lemma leafRows_cons_leaf {k : Str} {v : Value} {rest : List (Str × Value)}
    (hv : is_table v = false) :
    leafRows ((k, v) :: rest) = (k, v) :: leafRows rest := by
  cases v with
  | Table nt => cases hv
  | Null => rfl
  | Bool b => rfl
  | Integer i => rfl
  | Float f => rfl
  | String s => rfl
  | Array a => rfl

lemma leafRows_cons_table {k : Str} {nt rest : List (Str × Value)} :
    leafRows ((k, Value.Table nt) :: rest) = leafRows rest := rfl

lemma insertAll_leaf_sect : ∀ t : List (Str × Value),
    sortedKeys (t.map (·.1)) = true →
    insertAll (leafRows t) (sectTables t) = t := by
  intro t
  induction t with
  | nil => intro _; rfl
  | cons p rest ih =>
    intro hsort
    obtain ⟨k, v⟩ := p
    rw [List.map_cons] at hsort
    have hsort' := sortedKeys_tail hsort
    have hhd : ∀ b ∈ rest.map (·.1), keyLt k b = true := sortedKeys_head_lt hsort
    cases hv : is_table v
    · rw [leafRows_cons_leaf hv,
        show sectTables ((k, v) :: rest) = sectTables rest from by
          cases v <;> first | rfl | cases hv]
      rw [insertAll_cons_lt _ _ _ _ (fun s hs => hhd s.1
        ((sectTables_keys_sublist rest).subset (List.mem_map_of_mem _ hs)))]
      rw [ih hsort']
    · cases v with
      | Table nt =>
        rw [leafRows_cons_table,
          show sectTables ((k, Value.Table nt) :: rest) = (k, nt) :: sectTables rest
            from rfl]
        rw [insertAll]
        rw [tinsert_cons_of_all_gt (fun q hq => hhd q.1
          ((leafRows_keys_sublist rest).subset (List.mem_map_of_mem _ hq)))]
        rw [insertAll_cons_lt _ _ _ _ (fun s hs => hhd s.1
          ((sectTables_keys_sublist rest).subset (List.mem_map_of_mem _ hs)))]
        rw [ih hsort']
      | Null => cases hv
      | Bool b => cases hv
      | Integer i => cases hv
      | Float f => cases hv
      | String s => cases hv
      | Array a => cases hv

lemma rowOKb_leaf {p : Str × Value} (h : rowOKb p = true) : leafOKb p.2 = true := by
  obtain ⟨k, v⟩ := p
  rw [rowOKb, Bool.and_eq_true] at h
  exact h.2

lemma docOf_fold {t : List (Str × Value)}
    (hsort : sortedKeys (t.map (·.1)) = true) (h : t.all entryOKb = true) :
    docFold [] none (docOf t) = t := by
  rw [docFold_eq_st, docOf, docFoldSt_append]
  have hleaf : ∀ p ∈ leafRows t, leafOKb p.2 = true :=
    fun p hp => rowOKb_leaf (leafRows_ok h p hp)
  have hsl : sortedKeys ((leafRows t).map (·.1)) = true :=
    pairwise_sortedKeys ((sortedKeys_pairwise hsort).sublist (leafRows_keys_sublist t))
  have hss : sortedKeys ((sectTables t).map (·.1)) = true :=
    pairwise_sortedKeys ((sortedKeys_pairwise hsort).sublist (sectTables_keys_sublist t))
  rw [foldScalars (leafRows t) [] true hleaf (by intro p hp; cases hp) hsl,
    List.nil_append]
  rw [foldSections (sectTables t) (leafRows t) none _
    (fun s hs => leafRows_tget_none hsort hs) hss
    (fun s hs => ⟨(sectTables_ok h s hs).2.1, (sectTables_ok h s hs).2.2.1,
      fun p hp => rowOKb_leaf ((sectTables_ok h s hs).2.2.2 p hp)⟩)]
  exact insertAll_leaf_sect t hsort

/-- All characters of an item are ASCII. -/
def itemAscii : DocItem → Prop
  | .scalar nl k fv => (∀ c ∈ nl, isAsciiChar c = true) ∧
    (∀ c ∈ k, isAsciiChar c = true) ∧ (∀ c ∈ fv, isAsciiChar c = true)
  | .header nl name => (∀ c ∈ nl, isAsciiChar c = true) ∧
    (∀ c ∈ name, isAsciiChar c = true)

lemma docText_ascii : ∀ its : List DocItem, (∀ it ∈ its, itemAscii it) →
    ∀ c ∈ docText its, isAsciiChar c = true := by
  intro its
  induction its with
  | nil => intro _ c hc; cases hc
  | cons it rest ih =>
    intro h c hc
    rw [docText] at hc
    rcases List.mem_append.mp hc with hc' | hc'
    · have hit := h it (by simp)
      cases it with
      | scalar nl k fv =>
        rw [docItemText] at hc'
        rcases List.mem_append.mp hc' with hx | hx
        · exact hit.1 c hx
        · rcases List.mem_append.mp hx with hy | hy
          · exact hit.2.1 c hy
          · rcases List.mem_cons.mp hy with he | hy'
            · rw [he]; decide
            · rcases List.mem_cons.mp hy' with he | hy2
              · rw [he]; decide
              · rcases List.mem_cons.mp hy2 with he | hy3
                · rw [he]; decide
                · exact hit.2.2 c hy3
      | header nl name =>
        rw [docItemText] at hc'
        rcases List.mem_append.mp hc' with hx | hx
        · exact hit.1 c hx
        · rcases List.mem_cons.mp hx with he | hy
          · rw [he]; decide
          · rcases List.mem_append.mp hy with hz | hz
            · exact hit.2 c hz
            · rcases List.mem_cons.mp hz with he | hz'
              · rw [he]; decide
              · cases hz'
    · exact ih (fun x hx => h x (List.mem_cons_of_mem _ hx)) c hc'

lemma leafText_ascii {v : Value} (h : leafOKb v = true) :
    ∀ c ∈ leafText v, isAsciiChar c = true := by
  cases v with
  | Null => decide
  | Bool b => cases b <;> decide
  | Integer i =>
    intro c hc
    exact (numChar_props (int_to_string_chars c hc)).2.2.2.2.2.2.2.2.2.1
  | _ => cases h

lemma scalarItems_ascii : ∀ {L : List (Str × Value)} (first : Bool),
    (∀ p ∈ L, rowOKb p = true) → ∀ it ∈ scalarItems first L, itemAscii it := by
  intro L
  induction L with
  | nil => intro first _ it hit; cases hit
  | cons p rest ih =>
    intro first h it hit
    obtain ⟨k, v⟩ := p
    rw [scalarItems] at hit
    have hrow := h (k, v) (by simp)
    rw [rowOKb, Bool.and_eq_true] at hrow
    rcases List.mem_cons.mp hit with he | hit'
    · rw [he]
      refine ⟨?_, fun c hc => keyChar_ascii ((keyOKb_parts hrow.1).2 c hc),
        leafText_ascii hrow.2⟩
      intro c hc
      cases first
      · simp only [Bool.false_eq_true, if_false, List.mem_singleton] at hc
        rw [hc]
        decide
      · simp only [if_true] at hc
        cases hc
    · exact ih false (fun q hq => h q (List.mem_cons_of_mem _ hq)) it hit'

lemma sectionItems_ascii : ∀ {C : List (Str × List (Str × Value))} (b : Bool),
    (∀ s ∈ C, keyOKb s.1 = true ∧ ∀ p ∈ s.2, rowOKb p = true) →
    ∀ it ∈ sectionItems b C, itemAscii it := by
  intro C
  induction C with
  | nil => intro b _ it hit; cases hit
  | cons s rest ih =>
    intro b h it hit
    obtain ⟨name, nt⟩ := s
    rw [sectionItems] at hit
    have hs := h (name, nt) (by simp)
    rcases List.mem_cons.mp hit with he | hit'
    · rw [he]
      refine ⟨?_, fun c hc => keyChar_ascii ((keyOKb_parts hs.1).2 c hc)⟩
      cases b
      · decide
      · decide
    · rcases List.mem_append.mp hit' with hx | hx
      · exact scalarItems_ascii false hs.2 it hx
      · exact ih false (fun q hq => h q (List.mem_cons_of_mem _ hq)) it hx

lemma docOf_ascii {t : List (Str × Value)} (h : t.all entryOKb = true) :
    (docText (docOf t) ++ ['\n']).all isAsciiChar = true := by
  rw [List.all_eq_true]
  intro c hc
  rcases List.mem_append.mp hc with hc' | hc'
  · refine docText_ascii (docOf t) ?_ c hc'
    intro it hit
    rw [docOf] at hit
    rcases List.mem_append.mp hit with hx | hx
    · exact scalarItems_ascii true (leafRows_ok h) it hx
    · exact sectionItems_ascii _ (fun s hs =>
        ⟨(sectTables_ok h s hs).1, (sectTables_ok h s hs).2.2.2⟩) it hx
  · rcases List.mem_cons.mp hc' with he | hc2
    · rw [he]; decide
    · cases hc2

/-- C2 counterexample: the depth-three tree `{a: {b: {c: 1}}}` serializes
to `\n[a]\n\n[a.b]\nc = 1\n` (a dotted section header), but the CONF parser
treats `a.b` as a literal root key, so the parse returns the flat table
`{"a.b": {c: 1}}`, not the original tree — the round trip fails for tables
nested more than two levels deep, exactly the case the claim singles out. -/
theorem C2_counterexample :
    serializeTextOf (.Table [("a".data,
        .Table [("b".data, .Table [("c".data, Value.Integer 1)])])])
      = "\n[a]\n\n[a.b]\nc = 1\n".data ∧
    conf_parse "\n[a]\n\n[a.b]\nc = 1\n".data
      = .ok (.Table [("a.b".data, .Table [("c".data, Value.Integer 1)])]) ∧
    Value.Table [("a.b".data, .Table [("c".data, Value.Integer 1)])]
      ≠ Value.Table [("a".data,
        .Table [("b".data, .Table [("c".data, Value.Integer 1)])])] := by
  refine ⟨rfl, rfl, ?_⟩
  intro h
  rw [Value.Table.injEq, List.cons.injEq, Prod.mk.injEq] at h
  have := h.1.1
  simp at this

/-- C2 (corrected): the CONF round trip `parse (serialize v) = v` holds for
root tables up to two levels deep: every entry is either a covered scalar
(`Null`, a boolean, or an integer within `i64` range) or a nonempty sorted
sub-table of covered scalars, with all keys nonempty runs of key characters
(`entryOKb`).  Deeper nesting serializes to dotted section headers that the
parser reads back as literal flat keys (see the counterexample), so the
claim's "two or more levels deep" part is false; strings are also excluded
(quoting and list splitting are not inverted by the parser). -/
theorem C2_roundtrip (t : List (Str × Value))
    (hsort : sortedKeys (t.map (·.1)) = true)
    (hok : t.all entryOKb = true) :
    conf_parse (serializeTextOf (.Table t)) = .ok (.Table t) := by
  by_cases ht : t = []
  · subst ht
    rfl
  · have htext : serializeTextOf (Value.Table t) = docText (docOf t) ++ ['\n'] := by
      rw [serialize_c2 hok, ← docOf_text ht]
    rw [htext]
    rw [conf_parse_doc (docOf_ascii hok) (docOf t) ['\n'] rfl (docOf_itemsOK hok)]
    rw [docOf_fold hsort hok]

/-- Witness: the two-level table `{a: 1, s: {b: true}}` satisfies both
hypotheses and round-trips. -/
theorem C2_roundtrip_witness :
    sortedKeys (([("a".data, Value.Integer 1),
        ("s".data, .Table [("b".data, Value.Bool true)])] :
      List (Str × Value)).map (·.1)) = true ∧
    ([("a".data, Value.Integer 1),
        ("s".data, .Table [("b".data, Value.Bool true)])] :
      List (Str × Value)).all entryOKb = true ∧
    conf_parse (serializeTextOf (.Table [("a".data, Value.Integer 1),
        ("s".data, .Table [("b".data, Value.Bool true)])]))
      = .ok (.Table [("a".data, Value.Integer 1),
        ("s".data, .Table [("b".data, Value.Bool true)])]) :=
  ⟨rfl, rfl, C2_roundtrip _ rfl rfl⟩
